import Mathlib

/-!
A verification development for the query scope tree implementation
(`edgedb/lang/ir/scopetree.py`).  The tree is embedded as an arena of
nodes addressed by natural-number ids; mutation is explicit state
passing on the arena.  The `PathId` value type consumed by the tree is
not part of the sources and is modelled from its specification.
-/

namespace ScopeTreeSpec

/-- Modelled from the spec: `pathid.PathId` (the module `pathid` is not in
the sources).  An immutable value with a structural identity (the sequence
of navigation steps), a namespace stack (opaque string tags, most recent
last), and flags distinguishing pointer paths and link-property paths.
Equality is structural and includes the namespace stack. -/
structure PathId where
  steps : List String
  isPtr : Bool := false
  lprop : Bool := false
  ns : List String := []
deriving DecidableEq, Repr

def PathId.is_ptr_path (p : PathId) : Bool := p.isPtr

def PathId.is_linkprop_path (p : PathId) : Bool := p.lprop

/-- Modelled from the spec: `replace_namespace(ns)` returns the same path
with the namespace stack replaced. -/
def PathId.replace_namespace (p : PathId) (n : List String) : PathId :=
  { p with ns := n }

/-- Modelled from the spec: `strip_namespace(tags)` removes any trailing
namespace entry contained in `tags`; idempotent. -/
def PathId.strip_namespace (p : PathId) (tags : List String) : PathId :=
  { p with ns := ((p.ns.reverse.dropWhile (fun t => tags.contains t)).reverse) }

/-- The structural prefix of `p` consisting of its first `k+1` steps;
only the full prefix of a link-property path keeps the link-property flag. -/
def PathId.prefixAt (p : PathId) (k : Nat) : PathId :=
  { steps := p.steps.take (k+1),
    isPtr := false,
    lprop := p.lprop && (k + 1 == p.steps.length),
    ns := p.ns }

/-- Modelled from the spec: `iter_prefixes(include_ptr=True)` enumerates
each structural prefix exactly once, root first, up to the full path; all
prefixes carry the namespace stack of the full path.  Pointer-only
entries pair with link-property navigations (they flag the node processed
next in `attach_path`'s reversed iteration); a terminal link property is
already marked by `is_linkprop_path`, so for the paths representable here
the enumeration contains no pointer-only entries. -/
def PathId.iter_prefixes (p : PathId) : List PathId :=
  (List.range p.steps.length).map p.prefixAt

/-- `ScopeTreeNode`: the per-node record.  `children` holds arena ids; it
embeds the Python `set` of child nodes (membership is object identity,
which the arena renders as id equality).  `namespaces` is the set of
namespace tags declared on the branch.  `parent` embeds the weak
back-reference. -/
structure Node where
  path_id : Option PathId := none
  fenced : Bool := false
  protect_parent : Bool := false
  optional : Bool := false
  children : List Nat := []
  namespaces : List String := []
  parent : Option Nat := none
deriving DecidableEq, Repr

instance : Inhabited Node := ⟨{}⟩

/-- The arena of allocated `ScopeTreeNode` objects: id `i` denotes the
`i`-th allocated node.  Nodes are never deallocated (Python garbage
collection is unobservable); a detached node is simply a parentless root. -/
structure Tree where
  nodes : List Node
deriving DecidableEq, Repr

namespace Tree

def size (t : Tree) : Nat := t.nodes.length

def get (t : Tree) (i : Nat) : Node := t.nodes.getD i {}

def setN (t : Tree) (i : Nat) (n : Node) : Tree := ⟨t.nodes.set i n⟩

def modifyN (t : Tree) (i : Nat) (f : Node → Node) : Tree := t.setN i (f (t.get i))

/-- Allocation of a fresh node (`ScopeTreeNode(...)`): appends to the arena
and returns the new id. -/
def alloc (t : Tree) (n : Node) : Tree × Nat := (⟨t.nodes ++ [n]⟩, t.nodes.length)

def childrenOf (t : Tree) (i : Nat) : List Nat := (t.get i).children

def parentOf (t : Tree) (i : Nat) : Option Nat := (t.get i).parent

/-- `set.add` on the children set: append only when absent. -/
def childAdd (n : Node) (c : Nat) : Node :=
  if n.children.contains c then n else { n with children := n.children ++ [c] }

/-- `ScopeTreeNode._set_parent`: if the parent is unchanged, do nothing;
otherwise unlink from the current parent's children, then install the new
parent back-reference and add to its children.  (The source additionally
contains `print`/`traceback` debugging output keyed on one path id string;
it does not change the tree state and is not represented.) -/
def set_parent (t : Tree) (i : Nat) (p : Option Nat) : Tree :=
  if (t.get i).parent = p then t
  else
    let t1 := match (t.get i).parent with
      | some cp => t.modifyN cp (fun n => { n with children := n.children.erase i })
      | none => t
    match p with
    | some pp =>
      let t2 := t1.modifyN i (fun n => { n with parent := some pp })
      t2.modifyN pp (fun n => childAdd n i)
    | none => t1.modifyN i (fun n => { n with parent := none })

/-- `descendants` / `strict_descendants` recursion, depth-first with
children before self (post-order), bounded by explicit fuel; the wrappers
pass the arena size, which dominates the depth of any acyclic tree. -/
def strictDescAux (t : Tree) : Nat → Nat → List Nat
  | 0, _ => []
  | fuel+1, i => (t.childrenOf i).flatMap (fun c => strictDescAux t fuel c ++ [c])

def strict_descendants (t : Tree) (i : Nat) : List Nat := strictDescAux t t.size i

/-- `descendants`: descendants including self, depth-first. -/
def descendants (t : Tree) (i : Nat) : List Nat := t.strict_descendants i ++ [i]

/-- `strict_unfenced_descendants`: depth-first through children that are
not fenced, excluding self. -/
def strictUnfencedAux (t : Tree) : Nat → Nat → List Nat
  | 0, _ => []
  | fuel+1, i => (t.childrenOf i).flatMap (fun c =>
      if (t.get c).fenced then [] else strictUnfencedAux t fuel c ++ [c])

def strict_unfenced_descendants (t : Tree) (i : Nat) : List Nat :=
  strictUnfencedAux t t.size i

/-- `ancestors`: self, then the parent chain (fuel-bounded). -/
def ancestorsAux (t : Tree) : Nat → Nat → List Nat
  | 0, _ => []
  | fuel+1, i => i :: (match (t.get i).parent with
      | none => []
      | some p => ancestorsAux t fuel p)

def ancestors (t : Tree) (i : Nat) : List Nat := ancestorsAux t t.size i

/-- `strict_ancestors`: the parent chain without self. -/
def strict_ancestors (t : Tree) (i : Nat) : List Nat :=
  match (t.get i).parent with
  | none => []
  | some p => ancestorsAux t t.size p

/-- Union on namespace tag sets (membership is what later tests consult). -/
def nsUnion (a b : List String) : List String :=
  a ++ b.filter (fun s => !a.contains s)

/-- `ancestors_and_namespaces`: ancestors paired with the namespace sets
accumulated from self up to each ancestor inclusive. -/
def ancNsAux (t : Tree) : Nat → Nat → List String → List (Nat × List String)
  | 0, _, _ => []
  | fuel+1, i, acc =>
    let acc2 := nsUnion acc (t.get i).namespaces
    (i, acc2) :: (match (t.get i).parent with
      | none => []
      | some p => ancNsAux t fuel p acc2)

def ancestors_and_namespaces (t : Tree) (i : Nat) : List (Nat × List String) :=
  ancNsAux t t.size i []

/-- `path_children`: children that have path ids. -/
def path_children (t : Tree) (i : Nat) : List Nat :=
  (t.childrenOf i).filter (fun c => (t.get c).path_id.isSome)

/-- `path_descendants` as written in the source: it filters
`self.children` (exactly as `path_children` does), although its docstring
speaks of the node's descendants. -/
def path_descendants (t : Tree) (i : Nat) : List Nat :=
  (t.childrenOf i).filter (fun c => (t.get c).path_id.isSome)

/-- The variant that `path_descendants`' own docstring (and the spec)
describes: all nodes of the `descendants` traversal — which includes self
and nodes at any depth — that have path ids. -/
def path_descendants_spec (t : Tree) (i : Nat) : List Nat :=
  (t.descendants i).filter (fun c => (t.get c).path_id.isSome)

/-- `descendant_namespaces`: the union of `namespaces` over all
descendants (self included). -/
def descendant_namespaces (t : Tree) (i : Nat) : List String :=
  (t.descendants i).foldl (fun acc n => nsUnion acc (t.get n).namespaces) []

/-- `parent_fence`: the nearest strict ancestor fence. -/
def parent_fence (t : Tree) (i : Nat) : Option Nat :=
  (t.strict_ancestors i).find? (fun a => (t.get a).fenced)

/-- `fence`: self if fenced, else the parent fence. -/
def fence (t : Tree) (i : Nat) : Option Nat :=
  if (t.get i).fenced then some i else t.parent_fence i

end Tree

/-- The single-level namespace strip inside `_paths_equal`: if the id's
outermost (last) namespace tag is in `namespaces`, strip exactly that one
level. -/
def stripTop (p : PathId) (nss : List String) : PathId :=
  match p.ns.getLast? with
  | some tag => if nss.contains tag then p.replace_namespace p.ns.dropLast else p
  | none => p

/-- `_paths_equal(path_id_1, path_id_2, namespaces)`: false when either id
is null; when `namespaces` is non-empty, each id whose outermost namespace
tag lies in `namespaces` is stripped one level; then structural equality. -/
def pathsEqual (a b : Option PathId) (nss : List String) : Bool :=
  match a, b with
  | none, _ => false
  | _, none => false
  | some a, some b =>
    if nss.isEmpty then a == b
    else stripTop a nss == stripTop b nss

namespace Tree

/-- The body of `find_visible`'s loop at one ancestor: check the ancestor
itself, then its direct children, under the union of the passed and the
accumulated namespace sets. -/
def findVisibleStep (t : Tree) (p : PathId) (nss : List String)
    (e : Nat × List String) : Option Nat :=
  let comb := nsUnion nss e.2
  if pathsEqual (t.get e.1).path_id (some p) comb then some e.1
  else (t.childrenOf e.1).find? (fun c => pathsEqual (t.get c).path_id (some p) comb)

/-- `find_visible(path_id, namespaces)`: walk `ancestors_and_namespaces`
from self upward, returning the first node (ancestor or direct child of an
ancestor) whose path id is `_paths_equal` to the target. -/
def find_visible (t : Tree) (i : Nat) (p : PathId) (nss : List String) : Option Nat :=
  (t.ancestors_and_namespaces i).findSome? (findVisibleStep t p nss)

/-- `set.add` on a set of path ids accumulated as a duplicate-free list. -/
def pathAdd (l : List PathId) (p : PathId) : List PathId :=
  if l.contains p then l else l ++ [p]

/-- `get_all_visible()`: the union over the ancestor chain of each
ancestor's own path id, or, for branch ancestors, the path ids of its
children. -/
def get_all_visible (t : Tree) (i : Nat) : List PathId :=
  (t.ancestors i).foldl (fun acc n =>
    match (t.get n).path_id with
    | some p => pathAdd acc p
    | none => (t.childrenOf n).foldl (fun acc c =>
        match (t.get c).path_id with
        | some p => pathAdd acc p
        | none => acc) acc) []

/-- `is_empty()`: a path node is never empty; a branch is empty when all
its children are (fuel-bounded recursion). -/
def isEmptyAux (t : Tree) : Nat → Nat → Bool
  | 0, _ => true
  | fuel+1, i =>
    match (t.get i).path_id with
    | some _ => false
    | none => (t.childrenOf i).all (fun c => isEmptyAux t fuel c)

def is_empty (t : Tree) (i : Nat) : Bool := isEmptyAux t t.size i

/-- `attach_child(node)`: the low-level attachment primitive; no tree
validation is performed. -/
def attach_child (t : Tree) (self node : Nat) : Tree := t.set_parent node (some self)

/-- `attach_fence()`: create and attach an empty fenced node, returning it. -/
def attach_fence (t : Tree) (self : Nat) : Tree × Nat :=
  let (t1, f) := t.alloc { fenced := true }
  (attach_child t1 self f, f)

/-- `find_descendant(path_id)`: the first strict unfenced descendant whose
path id equals `path_id` exactly. -/
def find_descendant (t : Tree) (i : Nat) (p : PathId) : Option Nat :=
  (t.strict_unfenced_descendants i).find? (fun d => (t.get d).path_id = some p)

/-- `remove_subtree(node)`: raises `KeyError` when `node` is not currently
a child of self (the check precedes any mutation, so the returned tree is
the input on failure); otherwise unlinks the child. -/
def remove_subtree (t : Tree) (self node : Nat) : Tree × Option String :=
  if (t.get self).children.contains node then (t.set_parent node none, none)
  else (t, some "KeyError")

/-- `destroy()`: unlink self from its parent, if any.  The source routes
this through `parent.remove_subtree(self)`, whose membership check always
succeeds for a node whose parent's children contain it (parent/child
coherence), so it is embedded as the direct unlink. -/
def destroy (t : Tree) (i : Nat) : Tree :=
  match (t.get i).parent with
  | none => t
  | some _ => t.set_parent i none

/-- `unnest_descendants(path_id)`: collect the strict unfenced descendants
whose path id equals `path_id` exactly; if any, destroy all but the first,
reparent the first directly under self and return it, else return null. -/
def unnest_descendants (t : Tree) (self : Nat) (p : PathId) : Tree × Option Nat :=
  let ds := (t.strict_unfenced_descendants self).filter
    (fun n => (t.get n).path_id = some p)
  match ds with
  | [] => (t, none)
  | d :: rest =>
    let t1 := rest.foldl (fun acc n => destroy acc n) t
    (attach_child t1 self d, some d)

/-- The strip applied to the path children of a top-of-subtree remainder in
`attach_subtree`: `to_strip = set(pd.path_id.namespace) & dns`, then
`pd.path_id = pd.path_id.strip_namespace(to_strip)`. -/
def stripPathNode (dns : List String) (n : Node) : Node :=
  match n.path_id with
  | some pid =>
    let stripped := pid.strip_namespace (pid.ns.filter (fun s => dns.contains s))
    { n with path_id := some stripped }
  | none => n

/-- The top-of-subtree case of `attach_subtree`'s loop: when the
descendant still hangs directly beneath the incoming subtree root, strip
from each of its `path_descendants` the trailing namespace tags in `dns`,
then attach it to self. -/
def attachTop (self node : Nat) (dns : List String) (t : Tree) (d : Nat) : Tree :=
  if (t.get d).parent = some node then
    let t1 := (t.path_descendants d).foldl (fun acc pd =>
      acc.modifyN pd (stripPathNode dns)) t
    attach_child t1 self d
  else t

/-- One iteration of `attach_subtree`'s loop over the incoming subtree's
descendants: a path descendant already visible from self is destroyed; an
unfenced path descendant (its parent fence is the incoming root) is
deduplicated against self's unfenced descendants via `unnest_descendants`
on the namespace-stripped id; otherwise a descendant sitting directly
beneath the incoming root is attached to self as a remaining top. -/
def attachSubtreeStep (self node : Nat) (dns : List String) (t : Tree) (d : Nat) : Tree :=
  match (t.get d).path_id with
  | some dp =>
    if (t.find_visible self dp dns).isSome then destroy t d
    else if t.parent_fence d = some node then
      let (t1, unnested) := unnest_descendants t self (dp.strip_namespace dns)
      match unnested with
      | some _ => t1
      | none => attachTop self node dns t1 d
    else attachTop self node dns t d
  | none => attachTop self node dns t d

/-- `attach_subtree(node)`: wrap a bare path node in a fresh fenced node;
then fold every strict descendant of the incoming root through
`attachSubtreeStep`.  The source iterates the `strict_descendants`
generator while mutating the tree; since every loop action (destroy,
unnest into self's tree, attach of a finished top) touches only nodes the
post-order generator has already yielded, the lazy traversal coincides
with this eager snapshot. -/
def attach_subtree (t : Tree) (self node : Nat) : Tree :=
  let (t0, node0) :=
    match (t.get node).path_id with
    | some _ =>
      let (ta, w) := t.alloc { fenced := true }
      (attach_child ta w node, w)
    | none => (t, node)
  let dns := t0.descendant_namespaces node0
  let snapshot := t0.strict_descendants node0
  snapshot.foldl (attachSubtreeStep self node0 dns) t0

/-- One step of `attach_path`'s construction loop: a pointer prefix only
records the link-property flag; otherwise a fresh node for the prefix is
attached to the cursor, and the cursor descends unless the flag was set or
the prefix itself is a link-property path. -/
def attachPathStep (acc : Tree × Nat × Bool) (pref : PathId) : Tree × Nat × Bool :=
  let (tc, parent, is_lprop) := acc
  if pref.is_ptr_path then (tc, parent, true)
  else
    let (tc1, nc) := tc.alloc { path_id := some pref }
    let tc2 := attach_child tc1 parent nc
    let parent2 := if is_lprop || pref.is_linkprop_path then parent else nc
    (tc2, parent2, false)

/-- `attach_path(path_id)`: build a fresh fenced candidate subtree from
the reversed prefix enumeration of `path_id`, then fold it into self via
`attach_subtree`. -/
def attach_path (t : Tree) (self : Nat) (p : PathId) : Tree :=
  let (t1, w) := t.alloc { fenced := true }
  let r := (p.iter_prefixes.reverse).foldl attachPathStep (t1, w, false)
  attach_subtree r.1 self w

/-- `collapse()`: forbidden on the root (`ValueError`, raised before any
mutation).  For a path node the source runs
`for child in self.children: subtree.attach_child(child)` over the LIVE
children set while `attach_child` removes each child from that same set,
so CPython's set iterator fails its size check on the very next step:
exactly one child is moved under the fresh transient branch and then
`RuntimeError: Set changed size during iteration` is raised, leaving the
tree mutated.  The set's iteration order is unspecified; the model moves
the head of the (insertion-ordered) child list, and every order moves
exactly one child before failing.  A childless path node completes the
empty loop and attaches the fresh empty branch, which attaches nothing.
A branch node (path_id is None) is itself folded into the parent via
`attach_subtree`. -/
def collapse (t : Tree) (i : Nat) : Tree × Option String :=
  match (t.get i).parent with
  | none => (t, some "ValueError")
  | some parent =>
    match (t.get i).path_id with
    | some _ =>
      let (t1, w) := t.alloc {}
      match t1.childrenOf i with
      | [] => (attach_subtree t1 parent w, none)
      | c :: _ => (attach_child t1 w c, some "RuntimeError")
    | none => (attach_subtree t parent i, none)

end Tree

/-- `new_root()`: a fresh fenced empty node, here always allocated at
arena id 0 of a fresh arena. -/
def newRoot : Tree := ⟨[{ fenced := true }]⟩

/-! ## Structural invariants -/

/-- Upward reachability along parent back-references: `ReachUp t i j`
holds when following `parent` from `i` (zero or more steps) reaches `j`. -/
inductive ReachUp (t : Tree) : Nat → Nat → Prop
  | refl (i : Nat) : ReachUp t i i
  | step (i p j : Nat) : (t.get i).parent = some p → ReachUp t p j → ReachUp t i j

/-- Strict upward reachability: at least one parent step. -/
def ReachUpS (t : Tree) (i j : Nat) : Prop :=
  ∃ p, (t.get i).parent = some p ∧ ReachUp t p j

/-- Invariant P1 (parent/child coherence): every node's parent is null or
lists the node among its children. -/
def P1 (t : Tree) : Prop :=
  ∀ i, i < t.size →
    (t.get i).parent = none ∨
    ∃ p, (t.get i).parent = some p ∧ i ∈ (t.get p).children

/-- Invariant P2 (single parent): no node is in the children of two
distinct parents. -/
def P2 (t : Tree) : Prop :=
  ∀ n p q, p < t.size → q < t.size →
    n ∈ (t.get p).children → n ∈ (t.get q).children → p = q

/-- Invariant P3 (acyclicity): no node is a strict ancestor of itself. -/
def P3 (t : Tree) : Prop := ∀ i, ¬ ReachUpS t i i

/-- The full structural well-formedness invariant maintained by the tree
operations: ids stored in the arena are in range, the children sets and
parent back-references list exactly the same edges, children sets are
duplicate-free, and the parent relation is acyclic. -/
structure WF (t : Tree) : Prop where
  parent_lt : ∀ i, i < t.size → ∀ p, (t.get i).parent = some p → p < t.size
  coherent : ∀ i p, p < t.size →
    (i ∈ (t.get p).children ↔ (i < t.size ∧ (t.get i).parent = some p))
  nodup : ∀ i, i < t.size → (t.get i).children.Nodup
  acyclic : ∀ i, ¬ ReachUpS t i i

/-- Executable P1 check. -/
def p1check (t : Tree) : Bool :=
  (List.range t.size).all (fun i =>
    match (t.get i).parent with
    | none => true
    | some p => (t.get p).children.contains i)

/-- Executable P2 check. -/
def p2check (t : Tree) : Bool :=
  (List.range t.size).all (fun p =>
    (List.range t.size).all (fun q =>
      p = q || (t.get p).children.all (fun c => !(t.get q).children.contains c)))

/-- Executable chain-termination check: following `parent` from `i`
reaches a parentless node within `fuel` steps. -/
def upTerm (t : Tree) : Nat → Nat → Bool
  | 0, i => (t.get i).parent = none
  | fuel+1, i =>
    match (t.get i).parent with
    | none => true
    | some p => upTerm t fuel p

/-- Executable P3 check: every parent chain terminates within `size`
steps (which excludes any cycle among the arena's nodes). -/
def p3check (t : Tree) : Bool :=
  (List.range t.size).all (fun i => upTerm t t.size i)

/-- Executable coherence/range/nodup check matching `WF` minus acyclicity. -/
def cohCheck (t : Tree) : Bool :=
  (List.range t.size).all (fun i =>
    (match (t.get i).parent with
     | none => true
     | some p => decide (p < t.size) && (t.get p).children.contains i) &&
    (t.get i).children.all (fun c =>
      decide (c < t.size) && (t.get c).parent = some i) &&
    (t.get i).children.Nodup)

/-- Executable `WF` check. -/
def wfCheck (t : Tree) : Bool := cohCheck t && p3check t

/-- The set of nodes `find_visible` would accept for `p` looking from
`i` — each ancestor together with its direct children, filtered by
`_paths_equal` under the accumulated namespaces — without duplicates.
This renders the spec's P4 count of "visible path nodes equal to p". -/
def visibleMatches (t : Tree) (i : Nat) (p : PathId) : List Nat :=
  (t.ancestors_and_namespaces i).foldl (fun acc e =>
    let acc2 := if pathsEqual (t.get e.1).path_id (some p) e.2 && !acc.contains e.1
      then acc ++ [e.1] else acc
    (t.childrenOf e.1).foldl (fun a c =>
      if pathsEqual (t.get c).path_id (some p) e.2 && !a.contains c
      then a ++ [c] else a) acc2) []

/-! ## Concrete path ids and scenario fixtures -/

def pUser : PathId := { steps := ["User"] }
def pUserName : PathId := { steps := ["User", "name"] }
def pUserAge : PathId := { steps := ["User", "age"] }
def pCard : PathId := { steps := ["Card"] }
def pDeck : PathId := { steps := ["Deck"] }

/-- `User.name` carrying the namespace tag `v1` (topmost). -/
def pUserNameV1 : PathId := { steps := ["User", "name"], ns := ["v1"] }

/-- The state of a fresh fenced root after `attach_path(User.name)`
followed by `n` further `attach_path(User.name)` calls. -/
def afterAttaches : Nat → Tree
  | 0 => newRoot.attach_path 0 pUserName
  | n+1 => (afterAttaches n).attach_path 0 pUserName

/-- C2 fixture: root 0 with a non-fenced branch child B = 1. -/
def c2base : Tree := ((newRoot.alloc {}).1).attach_child 0 1

/-- C2: `B.attach_path(User.name)` then `root.attach_path(User.name)`. -/
def c2tree : Tree := (c2base.attach_path 1 pUserName).attach_path 0 pUserName

/-- C5 fixture: root 0 with a fenced child F = 1. -/
def c5base : Tree := (newRoot.attach_fence 0).1

/-- C5: `F.attach_path(User.name)` then `root.attach_path(User.name)`. -/
def c5tree : Tree := (c5base.attach_path 1 pUserName).attach_path 0 pUserName

/-- C6 fixture: root 0 → non-fenced branch A = 1 → path nodes X = 2
(`Card`) and Y = 3 (`Deck`). -/
def c6base : Tree :=
  ⟨[{ fenced := true, children := [1] },
    { children := [2, 3], parent := some 0 },
    { path_id := some pCard, parent := some 1 },
    { path_id := some pDeck, parent := some 1 }]⟩

/-- C6: the tree after `A.collapse()`. -/
def c6tree : Tree := (c6base.collapse 1).1

/-- C3 fixture: root 0 with a non-fenced branch B = 1 declaring
namespace set `{"v1"}`. -/
def c3base : Tree :=
  ⟨[{ fenced := true, children := [1] },
    { namespaces := ["v1"], parent := some 0 }]⟩

/-- C3: `B.attach_path(P)` with P = `User.name` tagged `v1`. -/
def c3afterB : Tree := c3base.attach_path 1 pUserNameV1

/-- C3: merging B's contents into the root via `collapse`. -/
def c3merged : Tree := (c3afterB.collapse 1).1

/-- C3: the subsequent `root.attach_path(User.name)` without the tag. -/
def c3final : Tree := c3merged.attach_path 0 pUserName

/-- C9 fixture: branch root 0 → path node 1 (`A`, steps) → path node 2
(`B`): a path-bearing node at depth two. -/
def c9tree : Tree :=
  ⟨[{ fenced := true, children := [1] },
    { path_id := some { steps := ["A"] }, children := [2], parent := some 0 },
    { path_id := some { steps := ["B"] }, parent := some 1 }]⟩

/-- C7 counterexample fixture: a fenced root with one attached fence. -/
def c7base : Tree := (newRoot.attach_fence 0).1

/-- C7: `attach_child` handed the root itself by its own child — the
low-level primitive performs no validation and builds a parent cycle. -/
def c7cycle : Tree := c7base.attach_child 1 0

/-- The shape of the rooted part of the tree that is stable from the
second `attach_path(User.name)` on: the root 0 has exactly the children
`User.name` (id 2) and `User` (id 3), both childless; any further
arena entries are detached construction garbage. -/
def C1Inv (t : Tree) : Prop :=
  t.get 0 = { fenced := true, children := [2, 3] }
  ∧ t.get 2 = { path_id := some pUserName, parent := some 0 }
  ∧ t.get 3 = { path_id := some pUser, parent := some 0 }
  ∧ 4 ≤ t.size

/-! ## Theorems -/

/-! ### Arena toolkit -/

theorem Tree.size_setN (t : Tree) (j : Nat) (v : Node) : (t.setN j v).size = t.size := by
  simp [Tree.setN, Tree.size]

theorem Tree.size_modifyN (t : Tree) (j : Nat) (f : Node → Node) :
    (t.modifyN j f).size = t.size := Tree.size_setN ..

theorem Tree.size_alloc (t : Tree) (v : Node) : (t.alloc v).1.size = t.size + 1 := by
  simp [Tree.alloc, Tree.size]

theorem Tree.alloc_id (t : Tree) (v : Node) : (t.alloc v).2 = t.size := rfl

theorem Tree.get_setN_ne (t : Tree) (j : Nat) (v : Node) (i : Nat) (h : i ≠ j) :
    (t.setN j v).get i = t.get i := by
  simp [Tree.setN, Tree.get, List.getD_eq_getElem?_getD, List.getElem?_set_ne (Ne.symm h)]

theorem Tree.get_setN_self (t : Tree) (j : Nat) (v : Node) (h : j < t.size) :
    (t.setN j v).get j = v := by
  simp [Tree.setN, Tree.get, Tree.size] at *
  simp [List.getD_eq_getElem?_getD, List.getElem?_set_self, h]

theorem Tree.get_modifyN_ne (t : Tree) (j : Nat) (f : Node → Node) (i : Nat) (h : i ≠ j) :
    (t.modifyN j f).get i = t.get i := Tree.get_setN_ne _ _ _ _ h

theorem Tree.get_modifyN_self (t : Tree) (j : Nat) (f : Node → Node) (h : j < t.size) :
    (t.modifyN j f).get j = f (t.get j) := Tree.get_setN_self _ _ _ h

theorem Tree.get_alloc_lt (t : Tree) (v : Node) (i : Nat) (h : i < t.size) :
    (t.alloc v).1.get i = t.get i := by
  show (t.nodes ++ [v]).getD i {} = t.nodes.getD i {}
  exact List.getD_append _ _ _ _ h

theorem Tree.get_alloc_self (t : Tree) (v : Node) : (t.alloc v).1.get t.size = v := by
  show (t.nodes ++ [v]).getD t.nodes.length {} = v
  rw [List.getD_append_right _ _ _ _ (Nat.le_refl _), Nat.sub_self]
  rfl

theorem Tree.get_oob (t : Tree) (i : Nat) (h : t.size ≤ i) : t.get i = {} := by
  show t.nodes.getD i {} = {}
  exact List.getD_eq_default _ _ h

theorem Tree.size_set_parent (t : Tree) (n : Nat) (p : Option Nat) :
    (t.set_parent n p).size = t.size := by
  unfold Tree.set_parent
  split
  · rfl
  · cases h : (t.get n).parent <;> cases p <;>
      simp [Tree.size_modifyN]

/-- Frame rule for `_set_parent`: a node distinct from the reparented
node, from its old parent, and from its new parent is untouched. -/
theorem Tree.get_set_parent_other (t : Tree) (n : Nat) (p : Option Nat) (i : Nat)
    (h1 : i ≠ n) (h2 : ∀ cp, (t.get n).parent = some cp → i ≠ cp)
    (h3 : ∀ pp, p = some pp → i ≠ pp) :
    (t.set_parent n p).get i = t.get i := by
  unfold Tree.set_parent
  split
  · rfl
  · cases hcp : (t.get n).parent with
    | none =>
      cases p with
      | none => simp [Tree.get_modifyN_ne _ _ _ _ h1]
      | some pp =>
        rw [Tree.get_modifyN_ne _ _ _ _ (h3 pp rfl), Tree.get_modifyN_ne _ _ _ _ h1]
    | some cp =>
      cases p with
      | none =>
        rw [Tree.get_modifyN_ne _ _ _ _ h1, Tree.get_modifyN_ne _ _ _ _ (h2 cp hcp)]
      | some pp =>
        rw [Tree.get_modifyN_ne _ _ _ _ (h3 pp rfl), Tree.get_modifyN_ne _ _ _ _ h1,
          Tree.get_modifyN_ne _ _ _ _ (h2 cp hcp)]

theorem stripTop_append_of_unrelated (a : PathId) (nss extra : List String)
    (h : ∀ s ∈ extra, a.ns.getLast? ≠ some s) :
    stripTop a (nss ++ extra) = stripTop a nss := by
  unfold stripTop
  cases hl : a.ns.getLast? with
  | none => rfl
  | some tag =>
    have htag : tag ∉ extra := fun hc => h tag hc hl
    simp [htag]

theorem stripTop_eq_of_unrelated (a : PathId) (nss : List String)
    (h : ∀ s ∈ nss, a.ns.getLast? ≠ some s) :
    stripTop a nss = a := by
  unfold stripTop
  cases hl : a.ns.getLast? with
  | none => rfl
  | some tag =>
    have htag : tag ∉ nss := fun hc => h tag hc hl
    simp [htag]

/-- C10: `_paths_equal` on non-null ids is symmetric; reflexive when the
two ids coincide; unchanged when the namespace set is extended by tags
that are the outermost tag of neither id; and its stripping is at most
one namespace level per id per call. -/
theorem c10_paths_equal_algebra :
    (∀ (a b : PathId) (nss : List String),
      pathsEqual (some a) (some b) nss = pathsEqual (some b) (some a) nss)
    ∧ (∀ (a : PathId) (nss : List String),
      pathsEqual (some a) (some a) nss = true)
    ∧ (∀ (a b : PathId) (nss extra : List String),
      (∀ s ∈ extra, a.ns.getLast? ≠ some s ∧ b.ns.getLast? ≠ some s) →
      pathsEqual (some a) (some b) (nss ++ extra) = pathsEqual (some a) (some b) nss)
    ∧ (∀ (a : PathId) (nss : List String),
      stripTop a nss = a ∨ (stripTop a nss).ns = a.ns.dropLast) := by
  refine ⟨?_, ?_, ?_, ?_⟩
  · intro a b nss
    unfold pathsEqual
    by_cases h : nss.isEmpty <;> simp [h, Bool.beq_comm]
  · intro a nss
    unfold pathsEqual
    by_cases h : nss.isEmpty <;> simp [h]
  · intro a b nss extra h
    have ha : ∀ s ∈ extra, a.ns.getLast? ≠ some s := fun s hs => (h s hs).1
    have hb : ∀ s ∈ extra, b.ns.getLast? ≠ some s := fun s hs => (h s hs).2
    unfold pathsEqual
    cases nss with
    | nil =>
      cases extra with
      | nil => rfl
      | cons e es =>
        have hA := stripTop_eq_of_unrelated a (e :: es) ha
        have hB := stripTop_eq_of_unrelated b (e :: es) hb
        simp [hA, hB]
    | cons x xs =>
      have hA := stripTop_append_of_unrelated a (x :: xs) extra ha
      have hB := stripTop_append_of_unrelated b (x :: xs) extra hb
      rw [List.cons_append] at hA hB
      simp [hA, hB]
  · intro a nss
    unfold stripTop
    cases hl : a.ns.getLast? with
    | none => exact Or.inl rfl
    | some tag =>
      by_cases hc : tag ∈ nss
      · exact Or.inr (by simp [hc, PathId.replace_namespace])
      · exact Or.inl (by simp [hc])

theorem c10_witness :
    (∀ s ∈ ["y"], pUser.ns.getLast? ≠ some s ∧ pUserNameV1.ns.getLast? ≠ some s)
    ∧ pathsEqual (some pUser) (some pUserNameV1) (["x"] ++ ["y"])
      = pathsEqual (some pUser) (some pUserNameV1) ["x"] :=
  ⟨by decide, c10_paths_equal_algebra.2.2.1 pUser pUserNameV1 ["x"] ["y"] (by decide)⟩

/-- C8: the claim holds for `remove_subtree` (it fails exactly when `n`
is not currently a child of self, leaving the tree unchanged) and for
`collapse` on a parentless node (`ValueError` before any mutation), but
the code has a further, unintended error path: `collapse` on a path node
iterates the live children set while `attach_child` shrinks it, so for
ANY path node with at least one child it raises `RuntimeError` - and
only after moving one child out, so the failure is not atomic.  The
last conjunct exhibits this on the tree produced by a single
`attach_path(User.name)`: collapsing the `User.name` node (id 2, child
of the root with the `User` node 3 beneath it) errors, yet afterwards
node 2 has lost its child and node 3 hangs under the freshly allocated
transient branch (id 4) instead of under node 2. -/
theorem c8_structural_failfast :
    (∀ (t : Tree) (self n : Nat),
      ((t.remove_subtree self n).2.isSome ↔ n ∉ (t.get self).children)
      ∧ ((t.remove_subtree self n).2.isSome → (t.remove_subtree self n).1 = t))
    ∧ (∀ (t : Tree) (i : Nat),
      (t.get i).parent = none → (t.collapse i).2.isSome ∧ (t.collapse i).1 = t)
    ∧ (∀ (t : Tree) (i parent : Nat),
      (t.get i).parent = some parent → (t.get i).path_id.isSome →
        t.childrenOf i ≠ [] → (t.collapse i).2.isSome)
    ∧ ((afterAttaches 0).collapse 2).2.isSome
    ∧ (((afterAttaches 0).collapse 2).1.get 2).children = []
    ∧ (((afterAttaches 0).collapse 2).1.get 3).parent = some 4 := by
  refine ⟨?_, ?_, ?_, by decide, by decide, by decide⟩
  · intro t self n
    unfold Tree.remove_subtree
    by_cases h : n ∈ (t.get self).children
    · simp [h]
    · simp [h]
  · intro t i h
    unfold Tree.collapse
    rw [h]
    exact ⟨rfl, rfl⟩
  · intro t i parent hp hpid hch
    have hi : i < t.size := by
      by_contra hge
      rw [Tree.get_oob _ _ (Nat.not_lt.mp hge)] at hp
      cases hp
    unfold Tree.collapse
    rw [hp]
    obtain ⟨q, hq⟩ := Option.isSome_iff_exists.mp hpid
    rw [hq]
    simp only []
    have hch1 : ((t.alloc ({} : Node)).1).childrenOf i = t.childrenOf i := by
      unfold Tree.childrenOf
      rw [Tree.get_alloc_lt _ _ _ hi]
    cases hc : ((t.alloc ({} : Node)).1).childrenOf i with
    | nil =>
      rw [hch1] at hc
      exact absurd hc hch
    | cons c rest => rfl

theorem c8_witness :
    ((newRoot.remove_subtree 0 1).2.isSome ∧ (newRoot.remove_subtree 0 1).1 = newRoot)
    ∧ ((newRoot.collapse 0).2.isSome ∧ (newRoot.collapse 0).1 = newRoot)
    ∧ ((afterAttaches 0).collapse 2).2.isSome := by
  have h1 := (c8_structural_failfast.1 newRoot 0 1)
  have e1 : (newRoot.remove_subtree 0 1).2.isSome := h1.1.mpr (by decide)
  exact ⟨⟨e1, h1.2 e1⟩,
    c8_structural_failfast.2.1 newRoot 0 (by decide),
    c8_structural_failfast.2.2.1 (afterAttaches 0) 2 0 (by decide) (by decide)
      (by decide)⟩

/-- C9: in the source, `path_descendants` yields only the node's direct
children with path ids; the path-bearing node 2 at depth two below node 0
is a descendant with a path id yet is missing from `path_descendants`,
contradicting the docstring/spec reading (`path_descendants_spec`). -/
theorem c9_path_descendants_shallow :
    c9tree.path_descendants 0 = [1]
    ∧ c9tree.path_descendants_spec 0 = [2, 1]
    ∧ 2 ∈ c9tree.descendants 0
    ∧ (c9tree.get 2).path_id.isSome
    ∧ 2 ∉ c9tree.path_descendants 0 := by decide

/-! ### Composite evaluation rules for the mutation primitives -/

theorem Tree.attach_child_fresh_gets (t : Tree) (self node : Nat)
    (hnp : (t.get node).parent = none) (hne : self ≠ node)
    (hself : self < t.size) (hnd : node < t.size) :
    (Tree.attach_child t self node).get node = { t.get node with parent := some self }
    ∧ (Tree.attach_child t self node).get self = Tree.childAdd (t.get self) node
    ∧ (∀ i, i ≠ self → i ≠ node → (Tree.attach_child t self node).get i = t.get i)
    ∧ (Tree.attach_child t self node).size = t.size := by
  unfold Tree.attach_child Tree.set_parent
  rw [hnp]
  have hguard : ((none : Option Nat) = some self) = False := by simp
  simp only [hguard, if_false]
  have hsz : (t.modifyN node fun n => { n with parent := some self }).size = t.size :=
    Tree.size_modifyN ..
  refine ⟨?_, ?_, ?_, ?_⟩
  · rw [Tree.get_modifyN_ne _ _ _ _ (Ne.symm hne),
      Tree.get_modifyN_self _ _ _ hnd]
  · rw [Tree.get_modifyN_self _ _ _ (by rw [hsz]; exact hself),
      Tree.get_modifyN_ne _ _ _ _ hne]
  · intro i hi1 hi2
    rw [Tree.get_modifyN_ne _ _ _ _ hi1, Tree.get_modifyN_ne _ _ _ _ hi2]
  · rw [Tree.size_modifyN, hsz]

theorem Tree.destroy_eval (t : Tree) (i p : Nat)
    (hp : (t.get i).parent = some p) (hne : p ≠ i)
    (hi : i < t.size) (hplt : p < t.size) :
    (Tree.destroy t i).get i = { t.get i with parent := none }
    ∧ (Tree.destroy t i).get p = { t.get p with children := (t.get p).children.erase i }
    ∧ (∀ j, j ≠ i → j ≠ p → (Tree.destroy t i).get j = t.get j)
    ∧ (Tree.destroy t i).size = t.size := by
  unfold Tree.destroy Tree.set_parent
  rw [hp]
  have hguard : ((some p : Option Nat) = none) = False := by simp
  simp only [hguard, if_false]
  have hsz : (t.modifyN p fun n => { n with children := n.children.erase i }).size = t.size :=
    Tree.size_modifyN ..
  refine ⟨?_, ?_, ?_, ?_⟩
  · rw [Tree.get_modifyN_self _ _ _ (by rw [hsz]; exact hi),
      Tree.get_modifyN_ne _ _ _ _ (Ne.symm hne)]
  · rw [Tree.get_modifyN_ne _ _ _ _ hne, Tree.get_modifyN_self _ _ _ hplt]
  · intro j hj1 hj2
    rw [Tree.get_modifyN_ne _ _ _ _ hj1, Tree.get_modifyN_ne _ _ _ _ hj2]
  · rw [Tree.size_modifyN, hsz]

/-! ### C1: the state reached by repeated `attach_path(User.name)` -/

theorem c1_anc_eval (t : Tree) (h0 : t.get 0 = { fenced := true, children := [2, 3] })
    (hs : 4 ≤ t.size) :
    t.ancestors_and_namespaces 0 = [(0, [])] ∧ t.ancestors 0 = [0] := by
  obtain ⟨m, hm⟩ : ∃ m, t.size = m + 1 := ⟨t.size - 1, by omega⟩
  constructor
  · unfold Tree.ancestors_and_namespaces
    rw [hm]
    simp [Tree.ancNsAux, h0, Tree.nsUnion]
  · unfold Tree.ancestors
    rw [hm]
    simp [Tree.ancestorsAux, h0]

theorem c1_find_eval (t : Tree) (h : C1Inv t) :
    t.find_visible 0 pUser [] = some 3 ∧ t.find_visible 0 pUserName [] = some 2 := by
  obtain ⟨h0, h2, h3, hs⟩ := h
  have hanc := (c1_anc_eval t h0 hs).1
  have e0 : Tree.nsUnion [] [] = [] := rfl
  have e1 : pathsEqual (some pUserName) (some pUser) [] = false := by decide
  have e2 : pathsEqual (some pUser) (some pUser) [] = true := by decide
  have e3 : pathsEqual (some pUserName) (some pUserName) [] = true := by decide
  have e4 : pathsEqual none (some pUser) [] = false := rfl
  have e5 : pathsEqual none (some pUserName) [] = false := rfl
  constructor <;>
  · unfold Tree.find_visible
    rw [hanc]
    simp [List.findSome?, Tree.findVisibleStep, Tree.childrenOf, h0, h2, h3,
      e0, e1, e2, e3, e4, e5, List.find?]

theorem c1_filter_eval (t : Tree) (h : C1Inv t) :
    (t.descendants 0).filter
      (fun i => (t.get i).path_id = some pUserName) = [2] := by
  obtain ⟨h0, h2, h3, hs⟩ := h
  obtain ⟨m, hm⟩ : ∃ m, t.size = m + 2 := ⟨t.size - 2, by omega⟩
  have hd : t.descendants 0 = [2, 3, 0] := by
    unfold Tree.descendants Tree.strict_descendants
    rw [hm]
    simp [Tree.strictDescAux, Tree.childrenOf, h0, h2, h3]
  have f2 : (decide ((some pUserName : Option PathId) = some pUserName)) = true := by decide
  have f3 : (decide ((some pUser : Option PathId) = some pUserName)) = false := by decide
  have f0 : (decide ((none : Option PathId) = some pUserName)) = false := by decide
  have f4 : (decide (pUser = pUserName)) = false := by decide
  rw [hd]
  simp [List.filter, h0, h2, h3, f2, f3, f0, f4]

theorem c1_all_eval (t : Tree) (h : C1Inv t) :
    t.get_all_visible 0 = [pUserName, pUser] := by
  obtain ⟨h0, h2, h3, hs⟩ := h
  have ha := (c1_anc_eval t h0 hs).2
  have g2 : Tree.pathAdd [] pUserName = [pUserName] := by decide
  have g3 : Tree.pathAdd [pUserName] pUser = [pUserName, pUser] := by decide
  unfold Tree.get_all_visible
  rw [ha]
  simp [Tree.childrenOf, h0, h2, h3, g2, g3]

theorem c1_attach_inv (t : Tree) (h : C1Inv t) : C1Inv (t.attach_path 0 pUserName) := by
  obtain ⟨h0, h2, h3, hs⟩ := h
  have hfind := c1_find_eval t ⟨h0, h2, h3, hs⟩
  -- Phase 1: the candidate subtree W(s) → User.name(s+1) → User(s+2).
  have e_list : pUserName.iter_prefixes.reverse = [pUserName, pUser] := by decide
  have e_ptr1 : pUserName.is_ptr_path = false := rfl
  have e_lp1 : pUserName.is_linkprop_path = false := rfl
  have e_ptr2 : pUser.is_ptr_path = false := rfl
  have e_lp2 : pUser.is_linkprop_path = false := rfl
  set s := t.size with hsdef
  set T1 : Tree := (t.alloc { fenced := true }).1 with hT1
  have sT1 : T1.size = s + 1 := Tree.size_alloc ..
  have gT1s : T1.get s = { fenced := true } := Tree.get_alloc_self ..
  have gT1 : ∀ i, i < s → T1.get i = t.get i := fun i hi => Tree.get_alloc_lt _ _ _ hi
  set T2 : Tree := (T1.alloc { path_id := some pUserName }).1 with hT2
  have sT2 : T2.size = s + 2 := by rw [hT2, Tree.size_alloc, sT1]
  have gT2s1 : T2.get (s+1) = { path_id := some pUserName } := by
    have h' := Tree.get_alloc_self T1 { path_id := some pUserName }
    rwa [sT1] at h'
  have gT2s : T2.get s = { fenced := true } := by
    rw [hT2, Tree.get_alloc_lt _ _ _ (by omega : s < T1.size)]
    exact gT1s
  have gT2 : ∀ i, i < s → T2.get i = t.get i := by
    intro i hi
    rw [hT2, Tree.get_alloc_lt _ _ _ (by omega : i < T1.size)]
    exact gT1 i hi
  set T3 : Tree := Tree.attach_child T2 s (s+1) with hT3
  have acT3 := Tree.attach_child_fresh_gets T2 s (s+1)
    (by rw [gT2s1]) (by omega) (by omega) (by omega)
  have gT3s1 : T3.get (s+1) = { path_id := some pUserName, parent := some s } := by
    rw [hT3, acT3.1, gT2s1]
  have gT3s : T3.get s = { fenced := true, children := [s+1] } := by
    rw [hT3, acT3.2.1, gT2s]
    simp [Tree.childAdd]
  have gT3 : ∀ i, i < s → T3.get i = t.get i := by
    intro i hi
    rw [hT3, acT3.2.2.1 i (by omega) (by omega)]
    exact gT2 i hi
  have sT3 : T3.size = s + 2 := by rw [hT3, acT3.2.2.2, sT2]
  set T4 : Tree := (T3.alloc { path_id := some pUser }).1 with hT4
  have sT4 : T4.size = s + 3 := by rw [hT4, Tree.size_alloc, sT3]
  have gT4s2 : T4.get (s+2) = { path_id := some pUser } := by
    have h' := Tree.get_alloc_self T3 { path_id := some pUser }
    rwa [sT3] at h'
  have gT4s1 : T4.get (s+1) = { path_id := some pUserName, parent := some s } := by
    rw [hT4, Tree.get_alloc_lt _ _ _ (by omega : s + 1 < T3.size)]
    exact gT3s1
  have gT4s : T4.get s = { fenced := true, children := [s+1] } := by
    rw [hT4, Tree.get_alloc_lt _ _ _ (by omega : s < T3.size)]
    exact gT3s
  have gT4 : ∀ i, i < s → T4.get i = t.get i := by
    intro i hi
    rw [hT4, Tree.get_alloc_lt _ _ _ (by omega : i < T3.size)]
    exact gT3 i hi
  set T5 : Tree := Tree.attach_child T4 (s+1) (s+2) with hT5
  have acT5 := Tree.attach_child_fresh_gets T4 (s+1) (s+2)
    (by rw [gT4s2]) (by omega) (by omega) (by omega)
  have gT5s2 : T5.get (s+2) = { path_id := some pUser, parent := some (s+1) } := by
    rw [hT5, acT5.1, gT4s2]
  have gT5s1 : T5.get (s+1)
      = { path_id := some pUserName, parent := some s, children := [s+2] } := by
    rw [hT5, acT5.2.1, gT4s1]
    simp [Tree.childAdd]
  have gT5s : T5.get s = { fenced := true, children := [s+1] } := by
    rw [hT5, acT5.2.2.1 s (by omega) (by omega)]
    exact gT4s
  have gT5 : ∀ i, i < s → T5.get i = t.get i := by
    intro i hi
    rw [hT5, acT5.2.2.1 i (by omega) (by omega)]
    exact gT4 i hi
  have sT5 : T5.size = s + 3 := by rw [hT5, acT5.2.2.2, sT4]
  -- The construction fold evaluates to (T5, s+2, false).
  have hfold : (pUserName.iter_prefixes.reverse).foldl Tree.attachPathStep (T1, s, false)
      = (T5, s + 2, false) := by
    rw [e_list]
    simp only [List.foldl_cons, List.foldl_nil]
    unfold Tree.attachPathStep
    simp only [e_ptr1, e_ptr2, e_lp1, e_lp2, Bool.false_eq_true, if_false, Bool.or_self]
    have r1 : (T1.alloc { path_id := some pUserName }).2 = s + 1 := by
      rw [Tree.alloc_id, sT1]
    simp only [← hT2, r1, if_neg (by simp : ¬ (false || false) = true), ← hT3]
    have r2 : (T3.alloc { path_id := some pUser }).2 = s + 2 := by
      rw [Tree.alloc_id, sT3]
    simp only [← hT4, r2, ← hT5]
  -- Phase 2: attach_subtree folds the candidate into the root.
  have hroot : t.attach_path 0 pUserName = Tree.attach_subtree T5 0 s := by
    have h1 : t.attach_path 0 pUserName
        = Tree.attach_subtree ((pUserName.iter_prefixes.reverse).foldl Tree.attachPathStep
            ((t.alloc { fenced := true }).1, t.nodes.length, false)).1 0 t.nodes.length := rfl
    rw [h1, show t.nodes.length = s from rfl, ← hT1, hfold]
  rw [hroot]
  have hInvT5 : C1Inv T5 :=
    ⟨by rw [gT5 0 (by omega)]; exact h0, by rw [gT5 2 (by omega)]; exact h2,
     by rw [gT5 3 (by omega)]; exact h3, by omega⟩
  have hpath : (T5.get s).path_id = none := by rw [gT5s]
  have hsub : Tree.attach_subtree T5 0 s
      = (T5.strict_descendants s).foldl
          (Tree.attachSubtreeStep 0 s (T5.descendant_namespaces s)) T5 := by
    unfold Tree.attach_subtree
    rw [hpath]
  have hsnap : T5.strict_descendants s = [s+2, s+1] := by
    unfold Tree.strict_descendants
    rw [sT5]
    simp [Tree.strictDescAux, Tree.childrenOf, gT5s, gT5s1, gT5s2]
  have hdns : T5.descendant_namespaces s = [] := by
    unfold Tree.descendant_namespaces Tree.descendants
    rw [hsnap]
    simp [Tree.nsUnion, gT5s, gT5s1, gT5s2]
  rw [hsub, hdns, hsnap]
  simp only [List.foldl_cons, List.foldl_nil]
  -- First loop iteration: the candidate `User` node is already visible
  -- (as node 3) and is destroyed.
  have hstep1 : Tree.attachSubtreeStep 0 s [] T5 (s+2) = Tree.destroy T5 (s+2) := by
    unfold Tree.attachSubtreeStep
    rw [gT5s2]
    simp [(c1_find_eval T5 hInvT5).1]
  set T6 : Tree := Tree.destroy T5 (s+2) with hT6
  have deT6 := Tree.destroy_eval T5 (s+2) (s+1)
    (by rw [gT5s2]) (by omega) (by omega) (by omega)
  have gT6s1 : T6.get (s+1)
      = { path_id := some pUserName, parent := some s, children := [] } := by
    rw [hT6, deT6.2.1, gT5s1]
    simp
  have gT6s : T6.get s = { fenced := true, children := [s+1] } := by
    rw [hT6, deT6.2.2.1 s (by omega) (by omega)]
    exact gT5s
  have gT6 : ∀ i, i < s → T6.get i = t.get i := by
    intro i hi
    rw [hT6, deT6.2.2.1 i (by omega) (by omega)]
    exact gT5 i hi
  have sT6 : T6.size = s + 3 := by rw [hT6, deT6.2.2.2, sT5]
  have hInvT6 : C1Inv T6 :=
    ⟨by rw [gT6 0 (by omega)]; exact h0, by rw [gT6 2 (by omega)]; exact h2,
     by rw [gT6 3 (by omega)]; exact h3, by omega⟩
  -- Second loop iteration: the candidate `User.name` node is already
  -- visible (as node 2) and is destroyed.
  have hstep2 : Tree.attachSubtreeStep 0 s [] T6 (s+1) = Tree.destroy T6 (s+1) := by
    unfold Tree.attachSubtreeStep
    rw [gT6s1]
    simp [(c1_find_eval T6 hInvT6).2]
  rw [hstep1, hstep2]
  have deT7 := Tree.destroy_eval T6 (s+1) s
    (by rw [gT6s1]) (by omega) (by omega) (by omega)
  refine ⟨?_, ?_, ?_, ?_⟩
  · rw [deT7.2.2.1 0 (by omega) (by omega), gT6 0 (by omega)]; exact h0
  · rw [deT7.2.2.1 2 (by omega) (by omega), gT6 2 (by omega)]; exact h2
  · rw [deT7.2.2.1 3 (by omega) (by omega), gT6 3 (by omega)]; exact h3
  · rw [deT7.2.2.2]; omega

theorem c1_inv_all : ∀ n, C1Inv (afterAttaches (n+1)) := by
  intro n
  induction n with
  | zero => exact ⟨by decide, by decide, by decide, by decide⟩
  | succ k ih => exact c1_attach_inv _ ih

/-- C1 counterexample: the set returned by `get_all_visible()` is not
unchanged by the second attach — the second `attach_path(User.name)`
promotes the prefix node `User` to the root, enlarging the visible set. -/
theorem c1_counterexample :
    ¬ (∀ x, x ∈ (afterAttaches 1).get_all_visible 0
        ↔ x ∈ (afterAttaches 0).get_all_visible 0) := by
  intro hall
  exact absurd ((hall pUser).mp (by decide)) (by decide)

/-- C1 (amended): after `attach_path(User.name)` followed by any number
of further `attach_path(User.name)` on a fresh fenced root,
`find_visible(User.name)` from the root returns a non-null node and
exactly one path node with path id `User.name` exists in the tree; the
set returned by `get_all_visible()` is unchanged by the third and later
attaches (the second attach changes it by promoting the prefix `User` to
the root). -/
theorem c1_scope_uniqueness_amended :
    ∀ n : Nat,
      ((afterAttaches n).find_visible 0 pUserName []).isSome
      ∧ ((afterAttaches n).descendants 0).filter
          (fun i => ((afterAttaches n).get i).path_id = some pUserName) = [2]
      ∧ (1 ≤ n →
          (afterAttaches (n+1)).get_all_visible 0
            = (afterAttaches n).get_all_visible 0) := by
  intro n
  cases n with
  | zero =>
    refine ⟨by decide, by decide, ?_⟩
    intro h
    omega
  | succ k =>
    have hinv := c1_inv_all k
    have hinv' := c1_inv_all (k+1)
    refine ⟨?_, c1_filter_eval _ hinv, ?_⟩
    · rw [(c1_find_eval _ hinv).2]
      rfl
    · intro _
      rw [c1_all_eval _ hinv', c1_all_eval _ hinv]

theorem c1_witness :
    ((afterAttaches 2).find_visible 0 pUserName []).isSome
    ∧ ((afterAttaches 2).descendants 0).filter
        (fun i => ((afterAttaches 2).get i).path_id = some pUserName) = [2]
    ∧ (afterAttaches 3).get_all_visible 0 = (afterAttaches 2).get_all_visible 0 :=
  ⟨(c1_scope_uniqueness_amended 2).1, (c1_scope_uniqueness_amended 2).2.1,
   (c1_scope_uniqueness_amended 2).2.2 (by omega)⟩

/-- C4 counterexample: after `attach_path(User.name)` on a fresh fenced
root, the claimed conjunction fails — `find_visible(User)` from the root
is null (`User` sits one level below the visible `User.name` node) and
`get_all_visible()` does not contain `User`. -/
theorem c4_counterexample :
    ¬ (((afterAttaches 0).find_visible 0 pUser []).isSome
       ∧ ((afterAttaches 0).find_visible 0 pUserName []).isSome
       ∧ (afterAttaches 0).find_visible 0 pUserAge [] = none
       ∧ (afterAttaches 0).is_empty 0 = false
       ∧ pUser ∈ (afterAttaches 0).get_all_visible 0
       ∧ pUserName ∈ (afterAttaches 0).get_all_visible 0) := by decide

/-- C4 (amended): after `attach_path(User.name)` on a fresh fenced root,
`find_visible(User.name)` from the root returns a node, `find_visible`
of `User` and of `User.age` from the root return null (`User` is nested
beneath the `User.name` node and is visible from there), `is_empty()` is
false, and `get_all_visible()` is exactly `{User.name}`. -/
theorem c4_simple_attach_amended :
    (afterAttaches 0).find_visible 0 pUser [] = none
    ∧ ((afterAttaches 0).find_visible 0 pUserName []).isSome
    ∧ (afterAttaches 0).find_visible 0 pUserAge [] = none
    ∧ (afterAttaches 0).is_empty 0 = false
    ∧ (afterAttaches 0).get_all_visible 0 = [pUserName]
    ∧ ((afterAttaches 0).find_visible 2 pUser []).isSome := by decide

/-- C5: a fence blocks deduplication — after `F.attach_path(User.name)`
and `root.attach_path(User.name)`, two distinct `User.name` path nodes
exist (3 under the fence, 6 under the root); `find_visible` from the root
finds the root-side copy, from F finds F's copy; and the root's
`get_all_visible()` lists `User.name` once. -/
theorem c5_fence_blocks_dedup :
    ((c5tree.descendants 0).filter
      (fun n => (c5tree.get n).path_id = some pUserName)) = [3, 6]
    ∧ c5tree.find_visible 0 pUserName [] = some 6
    ∧ (c5tree.get 6).parent = some 0
    ∧ c5tree.find_visible 1 pUserName [] = some 3
    ∧ (c5tree.get 3).parent = some 1
    ∧ (c5tree.get 1).fenced = true
    ∧ (c5tree.get_all_visible 0).count pUserName = 1 := by decide

/-- C2: unnesting across a non-fence branch — after
`B.attach_path(User.name)` then `root.attach_path(User.name)`, exactly
one `User.name` path node exists among the root's descendants (the node
originally built under B, id 3), it is now a direct child of the root,
and no path node remains anywhere under B. -/
theorem c2_unnest_across_branch :
    ((c2tree.descendants 0).filter
      (fun n => (c2tree.get n).path_id = some pUserName)) = [3]
    ∧ (c2tree.get 3).parent = some 0
    ∧ ((c2tree.descendants 1).filter
      (fun n => (c2tree.get n).path_id.isSome)) = [] := by decide

/-- C6 counterexample: after `A.collapse()` the branch node A (id 1) is
still in the tree — it remains an (empty) child of the root — so the
claimed conjunction fails. -/
theorem c6_counterexample :
    ¬ ((1 ∉ c6tree.descendants 0)
       ∧ 2 ∈ c6tree.descendants 0 ∧ 3 ∈ c6tree.descendants 0
       ∧ p1check c6tree = true ∧ p2check c6tree = true
       ∧ p3check c6tree = true) := by decide

/-- C6 (amended): after `A.collapse()`, X and Y are reparented as direct
children of the root; A remains attached to the root but is an empty
non-path branch (invisible to `pformat`); and the structural invariants
P1–P3 as well as the P4 visibility-uniqueness count hold on every node. -/
theorem c6_collapse_amended :
    (c6tree.get 2).parent = some 0 ∧ (c6tree.get 3).parent = some 0
    ∧ 2 ∈ c6tree.childrenOf 0 ∧ 3 ∈ c6tree.childrenOf 0
    ∧ 1 ∈ c6tree.childrenOf 0 ∧ (c6tree.get 1).path_id = none
    ∧ c6tree.childrenOf 1 = []
    ∧ p1check c6tree = true ∧ p2check c6tree = true ∧ p3check c6tree = true
    ∧ ((List.range c6tree.size).all (fun i =>
        decide ((visibleMatches c6tree i pCard).length ≤ 1)
        && decide ((visibleMatches c6tree i pDeck).length ≤ 1))) = true
    ∧ (visibleMatches c6tree 0 pCard).length = 1
    ∧ (visibleMatches c6tree 0 pDeck).length = 1 := by decide

/-- C3: the namespace strip on promotion is incomplete — after merging B
(namespaces `{v1}`) into the root, the promoted `User.name` node (id 3)
still carries the `v1` tag (only its path children were stripped, because
`path_descendants` iterates children and omits the node itself), so the
subsequent `root.attach_path(User.name)` is not deduplicated: a second
`User.name` path node (id 6) is created. -/
theorem c3_stripping_incomplete :
    (c3merged.get 3).path_id = some pUserNameV1
    ∧ (c3merged.get 3).parent = some 0
    ∧ (c3merged.get 4).path_id = some pUser
    ∧ ((c3final.descendants 0).filter (fun n =>
        match (c3final.get n).path_id with
        | some q => q.steps = pUserName.steps
        | none => false)) = [3, 6]
    ∧ (c3final.get 6).path_id = some pUserName
    ∧ (c3final.get 3).path_id = some pUserNameV1 := by decide

/-! ### C7: upward reachability machinery -/

theorem ReachUp.trans {t : Tree} {a b c : Nat}
    (h1 : ReachUp t a b) (h2 : ReachUp t b c) : ReachUp t a c := by
  induction h1 with
  | refl => exact h2
  | step i p j hp _ ih => exact .step i p c hp (ih h2)

/-- Append a single parent step at the top of a chain. -/
theorem ReachUp.append {t : Tree} {a b c : Nat}
    (h1 : ReachUp t a b) (h2 : (t.get b).parent = some c) : ReachUp t a c :=
  h1.trans (.step b c c h2 (.refl c))

theorem ReachUpS.of_reach {t : Tree} {a b c : Nat}
    (h1 : ReachUpS t a b) (h2 : ReachUp t b c) : ReachUpS t a c := by
  obtain ⟨p, hp, hr⟩ := h1
  exact ⟨p, hp, hr.trans h2⟩

theorem ReachUp.to_strict {t : Tree} {a b c : Nat}
    (h1 : ReachUp t a b) (h2 : ReachUpS t b c) : ReachUpS t a c := by
  obtain ⟨q, hq, hr2⟩ := h2
  cases h1 with
  | refl => exact ⟨q, hq, hr2⟩
  | step i p j hp hr => exact ⟨p, hp, hr.trans (.step b q c hq hr2)⟩

/-- In an acyclic tree, mutual reachability collapses. -/
theorem reach_antisymm {t : Tree} (hac : ∀ i, ¬ ReachUpS t i i) {a b : Nat}
    (h1 : ReachUp t a b) (h2 : ReachUp t b a) : a = b := by
  cases h1 with
  | refl => rfl
  | step i p j hp hr =>
    exact absurd ⟨p, hp, hr.trans h2⟩ (hac a)

/-- A chain from a parentless node goes nowhere. -/
theorem reach_from_parentless {t : Tree} {a b : Nat}
    (hp : (t.get a).parent = none) (h : ReachUp t a b) : b = a := by
  cases h with
  | refl => rfl
  | step i p j hpp _ => rw [hp] at hpp; exact absurd hpp (by simp)

/-- Monotonicity: if every parent edge of `t'` is a parent edge of `t`,
reachability in `t'` implies reachability in `t`. -/
theorem reach_mono {t t' : Tree}
    (hsub : ∀ i q, ((t'.get i).parent = some q) → ((t.get i).parent = some q))
    {a b : Nat} (h : ReachUp t' a b) : ReachUp t a b := by
  induction h with
  | refl => exact .refl _
  | step i p j hp _ ih => exact .step i p j (hsub i p hp) ih

/-- Out-of-range writes are no-ops. -/
theorem Tree.setN_oob (t : Tree) (j : Nat) (v : Node) (h : t.size ≤ j) :
    t.setN j v = t := by
  unfold Tree.setN
  rw [List.set_eq_of_length_le h]

theorem Tree.modifyN_oob (t : Tree) (j : Nat) (f : Node → Node) (h : t.size ≤ j) :
    t.modifyN j f = t := Tree.setN_oob _ _ _ h

/-- A record update that keeps the parent field keeps every node's parent. -/
theorem Tree.parent_modifyN_keep (t : Tree) (j : Nat) (f : Node → Node)
    (hf : ∀ nd, (f nd).parent = nd.parent) (i : Nat) :
    ((t.modifyN j f).get i).parent = (t.get i).parent := by
  by_cases hj : j < t.size
  · by_cases hij : i = j
    · subst hij
      rw [Tree.get_modifyN_self _ _ _ hj, hf]
    · rw [Tree.get_modifyN_ne _ _ _ _ hij]
  · rw [Tree.modifyN_oob _ _ _ (Nat.not_lt.mp hj)]

theorem Node.childAdd_parent (nd : Node) (c : Nat) :
    (Tree.childAdd nd c).parent = nd.parent := by
  unfold Tree.childAdd
  split <;> rfl

theorem Node.childAdd_path (nd : Node) (c : Nat) :
    (Tree.childAdd nd c).path_id = nd.path_id := by
  unfold Tree.childAdd
  split <;> rfl

/-- The parent field after `_set_parent` on an in-range node: the
reparented node gets the new parent, every other node keeps its own. -/
theorem Tree.set_parent_parent_char (t : Tree) (n : Nat) (p : Option Nat)
    (hn : n < t.size) (i : Nat) :
    ((t.set_parent n p).get i).parent = if i = n then p else (t.get i).parent := by
  by_cases hg : (t.get n).parent = p
  · unfold Tree.set_parent
    rw [if_pos hg]
    by_cases hi : i = n
    · subst hi; simp [hg]
    · simp [hi]
  · unfold Tree.set_parent
    rw [if_neg hg]
    cases hcp : (t.get n).parent with
    | none =>
      cases p with
      | none =>
        simp only []
        by_cases hi : i = n
        · subst hi
          rw [Tree.get_modifyN_self _ _ _ hn]
          simp
        · rw [Tree.get_modifyN_ne _ _ _ _ hi]
          simp [hi]
      | some pp =>
        simp only []
        rw [Tree.parent_modifyN_keep _ _ _ (fun nd => Node.childAdd_parent nd n) i]
        by_cases hi : i = n
        · subst hi
          rw [Tree.get_modifyN_self _ _ _ hn]
          simp
        · rw [Tree.get_modifyN_ne _ _ _ _ hi]
          simp [hi]
    | some cp =>
      have keep : ∀ k, ((t.modifyN cp fun nd =>
          { nd with children := nd.children.erase n }).get k).parent
          = (t.get k).parent :=
        Tree.parent_modifyN_keep _ _ _ (fun _ => rfl)
      have hsz : (t.modifyN cp fun nd =>
          { nd with children := nd.children.erase n }).size = t.size :=
        Tree.size_modifyN ..
      cases p with
      | none =>
        simp only []
        by_cases hi : i = n
        · subst hi
          rw [Tree.get_modifyN_self _ _ _ (by rwa [hsz])]
          simp
        · rw [Tree.get_modifyN_ne _ _ _ _ hi, keep]
          simp [hi]
      | some pp =>
        simp only []
        rw [Tree.parent_modifyN_keep _ _ _ (fun nd => Node.childAdd_parent nd n) i]
        by_cases hi : i = n
        · subst hi
          rw [Tree.get_modifyN_self _ _ _ (by rwa [hsz])]
          simp
        · rw [Tree.get_modifyN_ne _ _ _ _ hi, keep]
          simp [hi]

/-- Chains that end at the reparented node already existed. -/
theorem set_parent_reach_to_n (t : Tree) (n : Nat) (pp : Nat) (hn : n < t.size)
    {a : Nat} (h : ReachUp (t.set_parent n (some pp)) a n) : ReachUp t a n := by
  suffices hkey : ∀ a b, ReachUp (t.set_parent n (some pp)) a b → b = n → ReachUp t a n from
    hkey a n h rfl
  intro a b hab
  induction hab with
  | refl i => exact fun he => by subst he; exact .refl _
  | step i p j hp hr ih =>
    intro he
    by_cases hi : i = n
    · subst hi; exact .refl _
    · rw [Tree.set_parent_parent_char t n (some pp) hn i, if_neg hi] at hp
      exact .step i p n hp (ih he)

/-- Decomposition of a chain in the reparented tree: either it avoids the
new edge entirely, or it first runs to the reparented node in the old
tree and then continues from the new parent. -/
theorem set_parent_reach_decomp (t : Tree) (n : Nat) (pp : Nat) (hn : n < t.size)
    {a b : Nat} (h : ReachUp (t.set_parent n (some pp)) a b) :
    ReachUp t a b ∨ (ReachUp t a n ∧ ReachUp (t.set_parent n (some pp)) pp b) := by
  induction h with
  | refl i => exact Or.inl (.refl i)
  | step i p j hp hr ih =>
    by_cases hi : i = n
    · subst hi
      rw [Tree.set_parent_parent_char t i (some pp) hn i, if_pos rfl] at hp
      cases hp
      exact Or.inr ⟨.refl i, hr⟩
    · rw [Tree.set_parent_parent_char t n (some pp) hn i, if_neg hi] at hp
      rcases ih with h1 | ⟨h1, h2⟩
      · exact Or.inl (.step i p j hp h1)
      · exact Or.inr ⟨.step i p n hp h1, h2⟩

/-- A chain in the reparented tree starting at a node that does not reach
the reparented node in the old tree is an old chain. -/
theorem set_parent_reach_avoid (t : Tree) (n : Nat) (pp : Nat) (hn : n < t.size)
    {a b : Nat} (h : ReachUp (t.set_parent n (some pp)) a b) :
    ¬ ReachUp t a n → ReachUp t a b := by
  induction h with
  | refl i => exact fun _ => .refl i
  | step i p j hp hr ih =>
    intro hna
    have hi : i ≠ n := fun he => hna (he ▸ .refl i)
    rw [Tree.set_parent_parent_char t n (some pp) hn i, if_neg hi] at hp
    have hnp : ¬ ReachUp t p n := fun hpn => hna (.step i p n hp hpn)
    exact .step i p j hp (ih hnp)

/-- Full transport across `_set_parent n (some pp)` when the new parent
does not reach `n`. -/
theorem set_parent_reach_transport (t : Tree) (n : Nat) (pp : Nat) (hn : n < t.size)
    (hsafe : ¬ ReachUp t pp n) {a b : Nat}
    (h : ReachUp (t.set_parent n (some pp)) a b) :
    ReachUp t a b ∨ (ReachUp t a n ∧ ReachUp t pp b) := by
  rcases set_parent_reach_decomp t n pp hn h with h1 | ⟨h1, h2⟩
  · exact Or.inl h1
  · exact Or.inr ⟨h1, set_parent_reach_avoid t n pp hn h2 hsafe⟩

/-- Unlinking a node only removes parent edges. -/
theorem set_parent_none_sub (t : Tree) (n : Nat) (hn : n < t.size) :
    ∀ i q, ((t.set_parent n none).get i).parent = some q → (t.get i).parent = some q := by
  intro i q hq
  rw [Tree.set_parent_parent_char t n none hn i] at hq
  by_cases hi : i = n
  · rw [if_pos hi] at hq
    cases hq
  · rwa [if_neg hi] at hq

/-- `_set_parent` preserves acyclicity when the new parent does not reach
the reparented node. -/
theorem set_parent_acyclic (t : Tree) (n : Nat) (p : Option Nat) (hn : n < t.size)
    (hac : ∀ i, ¬ ReachUpS t i i)
    (hp : ∀ pp, p = some pp → ¬ ReachUp t pp n) :
    ∀ i, ¬ ReachUpS (t.set_parent n p) i i := by
  cases p with
  | none =>
    rintro i ⟨q, hq, hr⟩
    exact hac i ⟨q, set_parent_none_sub t n hn i q hq,
      reach_mono (set_parent_none_sub t n hn) hr⟩
  | some pp =>
    have hsafe := hp pp rfl
    rintro i ⟨q, hq, hr⟩
    rw [Tree.set_parent_parent_char t n (some pp) hn i] at hq
    by_cases hi : i = n
    · subst hi
      rw [if_pos rfl] at hq
      cases hq
      exact hsafe (set_parent_reach_to_n t i pp hn hr)
    · rw [if_neg hi] at hq
      rcases set_parent_reach_transport t n pp hn hsafe hr with h1 | ⟨h1, h2⟩
      · exact hac i ⟨q, hq, h1⟩
      · exact hsafe ((h2.append hq).trans h1)

theorem Node.childAdd_children (nd : Node) (c : Nat) :
    (Tree.childAdd nd c).children
      = if nd.children.contains c then nd.children else nd.children ++ [c] := by
  unfold Tree.childAdd
  split <;> simp_all

theorem mem_addChild {l : List Nat} {c x : Nat} :
    (x ∈ if l.contains c then l else l ++ [c]) ↔ x ∈ l ∨ x = c := by
  by_cases h : c ∈ l
  · rw [if_pos (List.elem_eq_true_of_mem h)]
    constructor
    · exact Or.inl
    · rintro (hx | rfl)
      · exact hx
      · exact h
  · have hc : l.contains c = false := by
      by_contra hcc
      exact h (List.mem_of_elem_eq_true (Bool.of_not_eq_false hcc))
    rw [hc]
    simp

theorem nodup_addChild {l : List Nat} {c : Nat} (h : l.Nodup) :
    (if l.contains c then l else l ++ [c]).Nodup := by
  by_cases hmem : c ∈ l
  · rwa [if_pos (List.elem_eq_true_of_mem hmem)]
  · have hc : l.contains c = false := by
      by_contra hcc
      exact hmem (List.mem_of_elem_eq_true (Bool.of_not_eq_false hcc))
    rw [hc]
    simp [List.nodup_append, h, hmem]

theorem Tree.children_modifyN_keep (t : Tree) (j : Nat) (f : Node → Node)
    (hf : ∀ nd, (f nd).children = nd.children) (i : Nat) :
    ((t.modifyN j f).get i).children = (t.get i).children := by
  by_cases hj : j < t.size
  · by_cases hij : i = j
    · subst hij
      rw [Tree.get_modifyN_self _ _ _ hj, hf]
    · rw [Tree.get_modifyN_ne _ _ _ _ hij]
  · rw [Tree.modifyN_oob _ _ _ (Nat.not_lt.mp hj)]

/-- Children sets after unlinking (`_set_parent n none`): the old parent
(if any) loses `n`; everyone else is unchanged. -/
theorem Tree.set_parent_none_children_char (t : Tree) (n : Nat) (hn : n < t.size) (i : Nat) :
    ((t.set_parent n none).get i).children
      = match (t.get n).parent with
        | some cp => if i = cp then (t.get i).children.erase n else (t.get i).children
        | none => (t.get i).children := by
  by_cases hg : (t.get n).parent = none
  · unfold Tree.set_parent
    rw [if_pos hg, hg]
  · unfold Tree.set_parent
    rw [if_neg hg]
    cases hcp : (t.get n).parent with
    | none => exact absurd hcp hg
    | some cp =>
      simp only []
      have keep : ∀ k, (((t.modifyN cp fun nd =>
          { nd with children := nd.children.erase n }).modifyN n
            fun nd => { nd with parent := none }).get k).children
          = ((t.modifyN cp fun nd =>
              { nd with children := nd.children.erase n }).get k).children :=
        Tree.children_modifyN_keep _ _ _ (fun _ => rfl)
      rw [keep i]
      by_cases hic : i = cp
      · subst hic
        by_cases hlt : i < t.size
        · rw [Tree.get_modifyN_self _ _ _ hlt]
          simp
        · rw [Tree.modifyN_oob _ _ _ (Nat.not_lt.mp hlt)]
          rw [Tree.get_oob _ _ (Nat.not_lt.mp hlt)]
          simp
      · rw [Tree.get_modifyN_ne _ _ _ _ hic]
        simp [hic]

/-- Children sets after reparenting (`_set_parent n (some pp)`, parent
actually changing): the old parent (if any) loses `n`, the new parent
gains it, everyone else is unchanged. -/
theorem Tree.set_parent_some_children_char (t : Tree) (n pp : Nat)
    (hn : n < t.size) (hpp : pp < t.size)
    (hg : (t.get n).parent ≠ some pp) (i : Nat) :
    ((t.set_parent n (some pp)).get i).children
      = (let e := match (t.get n).parent with
          | some cp => if i = cp then (t.get i).children.erase n else (t.get i).children
          | none => (t.get i).children
         if i = pp then (if e.contains n then e else e ++ [n]) else e) := by
  unfold Tree.set_parent
  rw [if_neg hg]
  cases hcp : (t.get n).parent with
  | none =>
    simp only []
    by_cases hip : i = pp
    · subst hip
      rw [Tree.get_modifyN_self _ _ _ (by rwa [Tree.size_modifyN]),
        Node.childAdd_children]
      by_cases hin : i = n
      · subst hin
        rw [Tree.get_modifyN_self _ _ _ hn]
        simp
      · rw [Tree.get_modifyN_ne _ _ _ _ hin]
        simp
    · rw [Tree.get_modifyN_ne _ _ _ _ hip]
      by_cases hin : i = n
      · subst hin
        rw [Tree.get_modifyN_self _ _ _ hn]
        simp [hip]
      · rw [Tree.get_modifyN_ne _ _ _ _ hin]
        simp [hip]
  | some cp =>
    simp only []
    have hsz1 : (t.modifyN cp fun nd =>
        { nd with children := nd.children.erase n }).size = t.size :=
      Tree.size_modifyN ..
    by_cases hip : i = pp
    · subst hip
      rw [Tree.get_modifyN_self _ _ _ (by rw [Tree.size_modifyN, hsz1]; exact hpp),
        Node.childAdd_children]
      by_cases hin : i = n
      · subst hin
        rw [Tree.get_modifyN_self _ _ _ (by rwa [hsz1])]
        by_cases hic : i = cp
        · subst hic
          rw [Tree.get_modifyN_self _ _ _ hn]
          simp
        · rw [Tree.get_modifyN_ne _ _ _ _ hic]
          simp [hic]
      · rw [Tree.get_modifyN_ne _ _ _ _ hin]
        by_cases hic : i = cp
        · subst hic
          by_cases hlt : i < t.size
          · rw [Tree.get_modifyN_self _ _ _ hlt]
            simp
          · rw [Tree.modifyN_oob _ _ _ (Nat.not_lt.mp hlt),
              Tree.get_oob _ _ (Nat.not_lt.mp hlt)]
            simp
        · rw [Tree.get_modifyN_ne _ _ _ _ hic]
          simp [hic]
    · rw [Tree.get_modifyN_ne _ _ _ _ hip]
      by_cases hin : i = n
      · subst hin
        rw [Tree.get_modifyN_self _ _ _ (by rwa [hsz1])]
        by_cases hic : i = cp
        · subst hic
          rw [Tree.get_modifyN_self _ _ _ hn]
          simp [hip]
        · rw [Tree.get_modifyN_ne _ _ _ _ hic]
          simp [hip, hic]
      · rw [Tree.get_modifyN_ne _ _ _ _ hin]
        by_cases hic : i = cp
        · subst hic
          by_cases hlt : i < t.size
          · rw [Tree.get_modifyN_self _ _ _ hlt]
            simp [hip]
          · rw [Tree.modifyN_oob _ _ _ (Nat.not_lt.mp hlt),
              Tree.get_oob _ _ (Nat.not_lt.mp hlt)]
            simp [hip]
        · rw [Tree.get_modifyN_ne _ _ _ _ hic]
          simp [hip, hic]

/-- `_set_parent` preserves the full structural invariant provided the
reparented node exists and the new parent (when given) exists and does
not reach the node upward. -/
theorem Tree.set_parent_WF (t : Tree) (n : Nat) (p : Option Nat)
    (hwf : WF t) (hn : n < t.size)
    (hp : ∀ pp, p = some pp → pp < t.size ∧ ¬ ReachUp t pp n) :
    WF (t.set_parent n p) := by
  have hsz : (t.set_parent n p).size = t.size := Tree.size_set_parent ..
  have hpchar := Tree.set_parent_parent_char t n p hn
  refine ⟨?_, ?_, ?_,
    set_parent_acyclic t n p hn hwf.acyclic (fun pp hpp => (hp pp hpp).2)⟩
  · intro i hi q hq
    rw [hsz] at hi
    rw [hpchar i] at hq
    by_cases hin : i = n
    · rw [if_pos hin] at hq
      rw [hsz]
      exact (hp q hq).1
    · rw [if_neg hin] at hq
      rw [hsz]
      exact hwf.parent_lt i hi q hq
  · intro i q hq
    rw [hsz] at hq
    by_cases hguard : (t.get n).parent = p
    · have heq : t.set_parent n p = t := by
        unfold Tree.set_parent
        rw [if_pos hguard]
      rw [heq]
      exact hwf.coherent i q hq
    · cases p with
      | none =>
        rw [Tree.set_parent_none_children_char t n hn q, hpchar i, hsz]
        cases hcp : (t.get n).parent with
        | none => exact absurd hcp hguard
        | some cp =>
          simp only []
          by_cases hqc : q = cp
          · subst hqc
            rw [if_pos rfl, (hwf.nodup q hq).mem_erase_iff]
            constructor
            · rintro ⟨hne, hmem⟩
              have hco := (hwf.coherent i q hq).mp hmem
              exact ⟨hco.1, by rw [if_neg hne]; exact hco.2⟩
            · rintro ⟨hlt, hpq⟩
              by_cases hin : i = n
              · rw [if_pos hin] at hpq
                cases hpq
              · rw [if_neg hin] at hpq
                exact ⟨hin, (hwf.coherent i q hq).mpr ⟨hlt, hpq⟩⟩
          · rw [if_neg hqc]
            constructor
            · intro hmem
              have hco := (hwf.coherent i q hq).mp hmem
              have hin : i ≠ n := by
                intro he
                subst he
                rw [hco.2] at hcp
                cases hcp
                exact hqc rfl
              exact ⟨hco.1, by rw [if_neg hin]; exact hco.2⟩
            · rintro ⟨hlt, hpq⟩
              by_cases hin : i = n
              · rw [if_pos hin] at hpq
                cases hpq
              · rw [if_neg hin] at hpq
                exact (hwf.coherent i q hq).mpr ⟨hlt, hpq⟩
      | some pp =>
        obtain ⟨hpplt, hsafe⟩ := hp pp rfl
        have hnpp : pp ≠ n := fun he => hsafe (by rw [he]; exact .refl n)
        rw [Tree.set_parent_some_children_char t n pp hn hpplt hguard q,
          hpchar i, hsz]
        cases hcp : (t.get n).parent with
        | none =>
          simp only []
          by_cases hqp : q = pp
          · subst hqp
            rw [if_pos rfl, mem_addChild]
            constructor
            · rintro (hmem | rfl)
              · have hco := (hwf.coherent i q hq).mp hmem
                have hin : i ≠ n := by
                  intro he
                  subst he
                  rw [hco.2] at hcp
                  cases hcp
                exact ⟨hco.1, by rw [if_neg hin]; exact hco.2⟩
              · exact ⟨hn, by rw [if_pos rfl]⟩
            · rintro ⟨hlt, hpq⟩
              by_cases hin : i = n
              · exact Or.inr hin
              · rw [if_neg hin] at hpq
                exact Or.inl ((hwf.coherent i q hq).mpr ⟨hlt, hpq⟩)
          · rw [if_neg hqp]
            constructor
            · intro hmem
              have hco := (hwf.coherent i q hq).mp hmem
              have hin : i ≠ n := by
                intro he
                subst he
                rw [hco.2] at hcp
                cases hcp
              exact ⟨hco.1, by rw [if_neg hin]; exact hco.2⟩
            · rintro ⟨hlt, hpq⟩
              by_cases hin : i = n
              · rw [if_pos hin] at hpq
                cases hpq
                exact absurd rfl hqp
              · rw [if_neg hin] at hpq
                exact (hwf.coherent i q hq).mpr ⟨hlt, hpq⟩
        | some cp =>
          simp only []
          have hcppp : cp ≠ pp := by
            intro he
            rw [hcp, he] at hguard
            exact hguard rfl
          by_cases hqp : q = pp
          · subst hqp
            have hqc : ¬ q = cp := fun he => hcppp he.symm
            rw [if_neg hqc, if_pos rfl, mem_addChild]
            constructor
            · rintro (hmem | rfl)
              · have hco := (hwf.coherent i q hq).mp hmem
                have hin : i ≠ n := by
                  intro he
                  subst he
                  rw [hco.2] at hcp
                  cases hcp
                  exact hqc rfl
                exact ⟨hco.1, by rw [if_neg hin]; exact hco.2⟩
              · exact ⟨hn, by rw [if_pos rfl]⟩
            · rintro ⟨hlt, hpq⟩
              by_cases hin : i = n
              · exact Or.inr hin
              · rw [if_neg hin] at hpq
                exact Or.inl ((hwf.coherent i q hq).mpr ⟨hlt, hpq⟩)
          · rw [if_neg hqp]
            by_cases hqc : q = cp
            · subst hqc
              rw [if_pos rfl, (hwf.nodup q hq).mem_erase_iff]
              constructor
              · rintro ⟨hne, hmem⟩
                have hco := (hwf.coherent i q hq).mp hmem
                exact ⟨hco.1, by rw [if_neg hne]; exact hco.2⟩
              · rintro ⟨hlt, hpq⟩
                by_cases hin : i = n
                · rw [if_pos hin] at hpq
                  cases hpq
                  exact absurd rfl hqp
                · rw [if_neg hin] at hpq
                  exact ⟨hin, (hwf.coherent i q hq).mpr ⟨hlt, hpq⟩⟩
            · rw [if_neg hqc]
              constructor
              · intro hmem
                have hco := (hwf.coherent i q hq).mp hmem
                have hin : i ≠ n := by
                  intro he
                  subst he
                  rw [hco.2] at hcp
                  cases hcp
                  exact hqc rfl
                exact ⟨hco.1, by rw [if_neg hin]; exact hco.2⟩
              · rintro ⟨hlt, hpq⟩
                by_cases hin : i = n
                · rw [if_pos hin] at hpq
                  cases hpq
                  exact absurd rfl hqp
                · rw [if_neg hin] at hpq
                  exact (hwf.coherent i q hq).mpr ⟨hlt, hpq⟩
  · intro i hi
    rw [hsz] at hi
    by_cases hguard : (t.get n).parent = p
    · have heq : t.set_parent n p = t := by
        unfold Tree.set_parent
        rw [if_pos hguard]
      rw [heq]
      exact hwf.nodup i hi
    · cases p with
      | none =>
        rw [Tree.set_parent_none_children_char t n hn i]
        cases hcp : (t.get n).parent with
        | none => exact hwf.nodup i hi
        | some cp =>
          simp only []
          by_cases hic : i = cp
          · rw [if_pos hic]
            exact (hwf.nodup i hi).erase n
          · rw [if_neg hic]
            exact hwf.nodup i hi
      | some pp =>
        obtain ⟨hpplt, _⟩ := hp pp rfl
        rw [Tree.set_parent_some_children_char t n pp hn hpplt hguard i]
        simp only []
        cases hcp : (t.get n).parent with
        | none =>
          simp only []
          by_cases hip : i = pp
          · rw [if_pos hip]
            exact nodup_addChild (hwf.nodup i hi)
          · rw [if_neg hip]
            exact hwf.nodup i hi
        | some cp =>
          simp only []
          by_cases hip : i = pp
          · rw [if_pos hip]
            by_cases hic : i = cp
            · rw [if_pos hic]
              exact nodup_addChild ((hwf.nodup i hi).erase n)
            · rw [if_neg hic]
              exact nodup_addChild (hwf.nodup i hi)
          · rw [if_neg hip]
            by_cases hic : i = cp
            · rw [if_pos hic]
              exact (hwf.nodup i hi).erase n
            · rw [if_neg hic]
              exact hwf.nodup i hi

/-- Allocating a detached node adds no parent edges. -/
theorem Tree.alloc_parent_sub (t : Tree) (v : Node) (hv : v.parent = none) :
    ∀ i q, (((t.alloc v).1.get i).parent = some q) → ((t.get i).parent = some q) := by
  intro i q h
  rcases Nat.lt_trichotomy i t.size with hlt | heq | hgt
  · rwa [Tree.get_alloc_lt _ _ _ hlt] at h
  · subst heq
    rw [Tree.get_alloc_self, hv] at h
    cases h
  · rw [Tree.get_oob _ _ (by rw [Tree.size_alloc]; omega)] at h
    cases h

/-- Allocation of a detached childless node preserves well-formedness. -/
theorem Tree.alloc_WF (t : Tree) (v : Node) (hwf : WF t)
    (hvp : v.parent = none) (hvc : v.children = []) : WF (t.alloc v).1 := by
  have hsz : (t.alloc v).1.size = t.size + 1 := Tree.size_alloc ..
  refine ⟨?_, ?_, ?_, ?_⟩
  · intro i hi q hq
    rw [hsz] at hi ⊢
    have := Tree.alloc_parent_sub t v hvp i q hq
    by_cases hlt : i < t.size
    · exact Nat.lt_succ_of_lt (hwf.parent_lt i hlt q this)
    · rw [Tree.get_oob _ _ (Nat.not_lt.mp hlt)] at this
      cases this
  · intro i q hq
    rw [hsz] at hq
    rcases Nat.lt_or_ge q t.size with hqlt | hqge
    · rw [Tree.get_alloc_lt _ _ _ hqlt]
      rw [hwf.coherent i q hqlt, hsz]
      constructor
      · rintro ⟨hilt, hip⟩
        refine ⟨by omega, ?_⟩
        rwa [Tree.get_alloc_lt _ _ _ hilt]
      · rintro ⟨hilt, hip⟩
        have hold := Tree.alloc_parent_sub t v hvp i q hip
        by_cases hl : i < t.size
        · exact ⟨hl, hold⟩
        · rw [Tree.get_oob _ _ (Nat.not_lt.mp hl)] at hold
          cases hold
    · have hqeq : q = t.size := by omega
      subst hqeq
      rw [Tree.get_alloc_self, hvc]
      simp only [List.not_mem_nil, false_iff, not_and]
      intro hilt hip
      have hold := Tree.alloc_parent_sub t v hvp i t.size hip
      by_cases hl : i < t.size
      · exact absurd (hwf.parent_lt i hl _ hold) (by omega)
      · rw [Tree.get_oob _ _ (Nat.not_lt.mp hl)] at hold
        cases hold
  · intro i hi
    rw [hsz] at hi
    by_cases hl : i < t.size
    · rw [Tree.get_alloc_lt _ _ _ hl]
      exact hwf.nodup i hl
    · have : i = t.size := by omega
      subst this
      rw [Tree.get_alloc_self, hvc]
      exact List.nodup_nil
  · rintro i ⟨q, hq, hr⟩
    exact hwf.acyclic i ⟨q, Tree.alloc_parent_sub t v hvp i q hq,
      reach_mono (Tree.alloc_parent_sub t v hvp) hr⟩

/-- Nothing reaches a freshly allocated detached node but itself. -/
theorem Tree.alloc_reach_self (t : Tree) (v : Node) (hwf : WF t) (hvp : v.parent = none)
    {a : Nat} (h : ReachUp (t.alloc v).1 a t.size) : a = t.size := by
  suffices hkey : ∀ a b, ReachUp (t.alloc v).1 a b → b = t.size → a = t.size from
    hkey a t.size h rfl
  intro a b hab
  induction hab with
  | refl i => exact fun he => he
  | step i p j hp hr ih =>
    intro he
    have hps := ih he
    have hold := Tree.alloc_parent_sub t v hvp i p hp
    by_cases hl : i < t.size
    · exact absurd (hwf.parent_lt i hl p hold) (by rw [hps]; omega)
    · rw [Tree.get_oob _ _ (Nat.not_lt.mp hl)] at hold
      cases hold

/-- Members of the unfenced traversal are strict descendants: they reach
the traversal root strictly upward and are in range. -/
theorem mem_strictUnfenced_reach (t : Tree) (hwf : WF t) :
    ∀ fuel root x, root < t.size → x ∈ Tree.strictUnfencedAux t fuel root →
      ReachUpS t x root ∧ x < t.size := by
  intro fuel
  induction fuel with
  | zero =>
    intro root x _ hx
    simp [Tree.strictUnfencedAux] at hx
  | succ f ih =>
    intro root x hroot hx
    simp only [Tree.strictUnfencedAux] at hx
    rw [List.mem_flatMap] at hx
    obtain ⟨c, hc, hx⟩ := hx
    have hco := (hwf.coherent c root hroot).mp hc
    by_cases hf : (t.get c).fenced
    · rw [if_pos hf] at hx
      simp at hx
    · rw [if_neg hf] at hx
      rw [List.mem_append] at hx
      rcases hx with hx | hx
      · have hrec := ih c x hco.1 hx
        exact ⟨hrec.1.of_reach (.step c root root hco.2 (.refl root)), hrec.2⟩
      · rw [List.mem_singleton] at hx
        subst hx
        exact ⟨⟨root, hco.2, .refl root⟩, hco.1⟩

/-- `destroy` only removes parent edges. -/
theorem destroy_edge_sub (t : Tree) (i : Nat) :
    ∀ a q, ((Tree.destroy t i).get a).parent = some q → (t.get a).parent = some q := by
  intro a q h
  unfold Tree.destroy at h
  cases hp : (t.get i).parent with
  | none => rwa [hp] at h
  | some p =>
    rw [hp] at h
    have hi : i < t.size := by
      by_contra hge
      rw [Tree.get_oob _ _ (Nat.not_lt.mp hge)] at hp
      cases hp
    exact set_parent_none_sub t i hi a q h

theorem Tree.destroy_WF (t : Tree) (i : Nat) (hwf : WF t) : WF (Tree.destroy t i) := by
  unfold Tree.destroy
  cases hp : (t.get i).parent with
  | none => exact hwf
  | some p =>
    have hi : i < t.size := by
      by_contra hge
      rw [Tree.get_oob _ _ (Nat.not_lt.mp hge)] at hp
      cases hp
    exact Tree.set_parent_WF t i none hwf hi (by intro pp h; cases h)

theorem Tree.destroy_size (t : Tree) (i : Nat) : (Tree.destroy t i).size = t.size := by
  unfold Tree.destroy
  cases (t.get i).parent
  · rfl
  · exact Tree.size_set_parent ..

/-- A record update that keeps both structural fields preserves
well-formedness, the arena size, and the reach relation. -/
theorem Tree.modify_keepstruct (t : Tree) (j : Nat) (f : Node → Node)
    (hfp : ∀ nd, (f nd).parent = nd.parent) (hfc : ∀ nd, (f nd).children = nd.children)
    (hwf : WF t) :
    WF (t.modifyN j f) ∧ (t.modifyN j f).size = t.size
    ∧ (∀ a b, ReachUp (t.modifyN j f) a b ↔ ReachUp t a b) := by
  have hpar : ∀ i, ((t.modifyN j f).get i).parent = (t.get i).parent :=
    Tree.parent_modifyN_keep t j f hfp
  have hch : ∀ i, ((t.modifyN j f).get i).children = (t.get i).children :=
    Tree.children_modifyN_keep t j f hfc
  have hsz : (t.modifyN j f).size = t.size := Tree.size_modifyN ..
  have hsub1 : ∀ i q, (((t.modifyN j f).get i).parent = some q) → ((t.get i).parent = some q) :=
    fun i q h => (hpar i) ▸ h
  have hsub2 : ∀ i q, ((t.get i).parent = some q) → (((t.modifyN j f).get i).parent = some q) :=
    fun i q h => (hpar i).symm ▸ h
  refine ⟨⟨?_, ?_, ?_, ?_⟩, hsz, fun a b => ⟨reach_mono hsub1, reach_mono hsub2⟩⟩
  · intro i hi q hq
    rw [hsz] at hi
    rw [hpar i] at hq
    rw [hsz]
    exact hwf.parent_lt i hi q hq
  · intro i q hq
    rw [hsz] at hq
    rw [hch q, hpar i, hsz]
    exact hwf.coherent i q hq
  · intro i hi
    rw [hsz] at hi
    rw [hch i]
    exact hwf.nodup i hi
  · rintro i ⟨q, hq, hr⟩
    exact hwf.acyclic i ⟨q, hsub1 i q hq, reach_mono hsub1 hr⟩

/-- Destroying a list of nodes preserves well-formedness and size and
only removes parent edges. -/
theorem foldl_destroy_facts (l : List Nat) :
    ∀ t : Tree, WF t →
      WF (l.foldl (fun acc n => Tree.destroy acc n) t)
      ∧ (l.foldl (fun acc n => Tree.destroy acc n) t).size = t.size
      ∧ (∀ a q, (((l.foldl (fun acc n => Tree.destroy acc n) t).get a).parent = some q)
          → ((t.get a).parent = some q)) := by
  induction l with
  | nil => exact fun t hwf => ⟨hwf, rfl, fun _ _ h => h⟩
  | cons c cs ih =>
    intro t hwf
    simp only [List.foldl_cons]
    obtain ⟨h1, h2, h3⟩ := ih (Tree.destroy t c) (Tree.destroy_WF t c hwf)
    exact ⟨h1, by rw [h2, Tree.destroy_size],
      fun a q h => destroy_edge_sub t c a q (h3 a q h)⟩

/-- When `unnest_descendants` finds nothing it does not touch the tree. -/
theorem unnest_none_eq (t : Tree) (self : Nat) (p : PathId)
    (h : (t.unnest_descendants self p).2 = none) :
    (t.unnest_descendants self p).1 = t := by
  unfold Tree.unnest_descendants at *
  cases hds : (t.strict_unfenced_descendants self).filter
      (fun n => (t.get n).path_id = some p) with
  | nil => rfl
  | cons d rest =>
    rw [hds] at h
    simp at h

/-- `unnest_descendants` preserves well-formedness; moreover any node the
target could not reach upward before still cannot be reached. -/
theorem Tree.unnest_WF (t : Tree) (self : Nat) (p : PathId)
    (hwf : WF t) (hself : self < t.size) :
    WF (t.unnest_descendants self p).1
    ∧ (t.unnest_descendants self p).1.size = t.size
    ∧ (∀ node, ¬ ReachUp t self node
        → ¬ ReachUp (t.unnest_descendants self p).1 self node) := by
  unfold Tree.unnest_descendants
  cases hds : (t.strict_unfenced_descendants self).filter
      (fun n => (t.get n).path_id = some p) with
  | nil => exact ⟨hwf, rfl, fun _ h => h⟩
  | cons d rest =>
    simp only []
    have hdmem : d ∈ Tree.strictUnfencedAux t t.size self := by
      have : d ∈ (t.strict_unfenced_descendants self).filter
          (fun n => (t.get n).path_id = some p) := by
        rw [hds]; exact List.mem_cons_self d rest
      exact (List.mem_filter.mp this).1
    obtain ⟨hreach, hdlt⟩ := mem_strictUnfenced_reach t hwf t.size self d hself hdmem
    have hnsd : ¬ ReachUp t self d := by
      intro hsd
      exact hwf.acyclic d (hreach.of_reach hsd)
    obtain ⟨hwf1, hsz1, hsub1⟩ := foldl_destroy_facts rest t hwf
    set t1 := rest.foldl (fun acc n => Tree.destroy acc n) t with ht1
    have hnsd1 : ¬ ReachUp t1 self d := fun h => hnsd (reach_mono hsub1 h)
    have hwf2 : WF (Tree.attach_child t1 self d) := by
      unfold Tree.attach_child
      exact Tree.set_parent_WF t1 d (some self) hwf1 (by rw [hsz1]; exact hdlt)
        (fun pp hpp => by cases hpp; exact ⟨by rw [hsz1]; exact hself, hnsd1⟩)
    refine ⟨hwf2, ?_, ?_⟩
    · unfold Tree.attach_child
      rw [Tree.size_set_parent, hsz1]
    · intro node hnode
      intro hr
      unfold Tree.attach_child at hr
      have hdlt1 : d < t1.size := by rw [hsz1]; exact hdlt
      rcases set_parent_reach_transport t1 d self hdlt1 hnsd1 hr with h1 | ⟨h1, _⟩
      · exact hnode (reach_mono hsub1 h1)
      · exact hnsd1 h1

/-- The namespace strip over the path children of a top node keeps the
structure: well-formedness, size and reach are untouched. -/
theorem strip_fold_facts (l : List Nat) (dns : List String) :
    ∀ t : Tree, WF t →
      WF (l.foldl (fun acc pd => acc.modifyN pd (Tree.stripPathNode dns)) t)
      ∧ (l.foldl (fun acc pd => acc.modifyN pd (Tree.stripPathNode dns)) t).size = t.size
      ∧ (∀ a b, ReachUp (l.foldl (fun acc pd => acc.modifyN pd (Tree.stripPathNode dns)) t) a b
          ↔ ReachUp t a b)
      ∧ (∀ i, ((l.foldl (fun acc pd => acc.modifyN pd (Tree.stripPathNode dns)) t).get i).parent
          = (t.get i).parent) := by
  have hkeep : ∀ nd, (Tree.stripPathNode dns nd).parent = nd.parent ∧
      (Tree.stripPathNode dns nd).children = nd.children := by
    intro nd
    unfold Tree.stripPathNode
    cases nd.path_id <;> exact ⟨rfl, rfl⟩
  induction l with
  | nil => exact fun t hwf => ⟨hwf, rfl, fun _ _ => Iff.rfl, fun _ => rfl⟩
  | cons c cs ih =>
    intro t hwf
    simp only [List.foldl_cons]
    obtain ⟨hw, hsz, hre⟩ := Tree.modify_keepstruct t c (Tree.stripPathNode dns)
      (fun nd => (hkeep nd).1) (fun nd => (hkeep nd).2) hwf
    obtain ⟨h1, h2, h3, h4⟩ := ih (t.modifyN c (Tree.stripPathNode dns)) hw
    refine ⟨h1, by rw [h2, hsz], ?_, ?_⟩
    · intro a b
      rw [h3 a b, hre a b]
    · intro i
      rw [h4 i, Tree.parent_modifyN_keep t c _ (fun nd => (hkeep nd).1) i]

/-- The top-of-subtree attachment preserves well-formedness and the
loop invariant that `self` does not reach the incoming root. -/
theorem attachTop_WF (self node : Nat) (dns : List String) (t : Tree) (d : Nat)
    (hwf : WF t) (hself : self < t.size) (hnr : ¬ ReachUp t self node) :
    WF (Tree.attachTop self node dns t d)
    ∧ (Tree.attachTop self node dns t d).size = t.size
    ∧ ¬ ReachUp (Tree.attachTop self node dns t d) self node := by
  unfold Tree.attachTop
  by_cases hpd : (t.get d).parent = some node
  · rw [if_pos hpd]
    have hdlt : d < t.size := by
      by_contra hge
      rw [Tree.get_oob _ _ (Nat.not_lt.mp hge)] at hpd
      cases hpd
    obtain ⟨hw1, hsz1, hre1, hpar1⟩ := strip_fold_facts (t.path_descendants d) dns t hwf
    set t1 := (t.path_descendants d).foldl
      (fun acc pd => acc.modifyN pd (Tree.stripPathNode dns)) t with ht1
    have hpd1 : (t1.get d).parent = some node := by rw [hpar1 d]; exact hpd
    have hnsd1 : ¬ ReachUp t1 self d := by
      intro h
      have htd : ReachUp t self d := (hre1 self d).mp h
      exact hnr (htd.append hpd)
    have hdlt1 : d < t1.size := by rw [hsz1]; exact hdlt
    have hself1 : self < t1.size := by rw [hsz1]; exact hself
    refine ⟨?_, ?_, ?_⟩
    · unfold Tree.attach_child
      exact Tree.set_parent_WF t1 d (some self) hw1 hdlt1
        (fun pp hpp => by cases hpp; exact ⟨hself1, hnsd1⟩)
    · unfold Tree.attach_child
      rw [Tree.size_set_parent, hsz1]
    · intro hr
      unfold Tree.attach_child at hr
      rcases set_parent_reach_transport t1 d self hdlt1 hnsd1 hr with h1 | ⟨h1, _⟩
      · exact hnr ((hre1 self node).mp h1)
      · exact hnsd1 h1
  · rw [if_neg hpd]
    exact ⟨hwf, rfl, hnr⟩

/-- One iteration of the `attach_subtree` loop preserves well-formedness,
size and the invariant that `self` does not reach the incoming root. -/
theorem attachSubtreeStep_WF (self node : Nat) (dns : List String) (t : Tree) (d : Nat)
    (hwf : WF t) (hself : self < t.size) (hnr : ¬ ReachUp t self node) :
    WF (Tree.attachSubtreeStep self node dns t d)
    ∧ (Tree.attachSubtreeStep self node dns t d).size = t.size
    ∧ ¬ ReachUp (Tree.attachSubtreeStep self node dns t d) self node := by
  unfold Tree.attachSubtreeStep
  cases hpid : (t.get d).path_id with
  | none =>
    obtain ⟨h1, h2, h3⟩ := attachTop_WF self node dns t d hwf hself hnr
    exact ⟨h1, h2, h3⟩
  | some dp =>
    simp only []
    by_cases hfv : (t.find_visible self dp dns).isSome
    · rw [if_pos hfv]
      refine ⟨Tree.destroy_WF t d hwf, Tree.destroy_size t d, ?_⟩
      intro h
      exact hnr (reach_mono (destroy_edge_sub t d) h)
    · rw [if_neg hfv]
      by_cases hpf : t.parent_fence d = some node
      · rw [if_pos hpf]
        obtain ⟨hu1, hu2, hu3⟩ := Tree.unnest_WF t self (dp.strip_namespace dns) hwf hself
        cases hun : (t.unnest_descendants self (dp.strip_namespace dns)).2 with
        | some u =>
          simp only []
          exact ⟨hu1, hu2, hu3 node hnr⟩
        | none =>
          simp only []
          rw [unnest_none_eq t self _ hun]
          exact attachTop_WF self node dns t d hwf hself hnr
      · rw [if_neg hpf]
        exact attachTop_WF self node dns t d hwf hself hnr

/-- The whole `attach_subtree` loop preserves well-formedness, size and
the non-reach invariant, for any snapshot list. -/
theorem foldl_attachSubtreeStep_WF (l : List Nat) (self node : Nat) (dns : List String) :
    ∀ t : Tree, WF t → self < t.size → ¬ ReachUp t self node →
      WF (l.foldl (Tree.attachSubtreeStep self node dns) t)
      ∧ (l.foldl (Tree.attachSubtreeStep self node dns) t).size = t.size
      ∧ ¬ ReachUp (l.foldl (Tree.attachSubtreeStep self node dns) t) self node := by
  induction l with
  | nil => exact fun t hwf _ hnr => ⟨hwf, rfl, hnr⟩
  | cons c cs ih =>
    intro t hwf hself hnr
    simp only [List.foldl_cons]
    obtain ⟨h1, h2, h3⟩ := attachSubtreeStep_WF self node dns t c hwf hself hnr
    obtain ⟨g1, g2, g3⟩ := ih _ h1 (by rw [h2]; exact hself) h3
    exact ⟨g1, by rw [g2, h2], g3⟩

/-- `attach_subtree` preserves well-formedness whenever the incoming root
is an existing node that is not the target nor one of its ancestors. -/
theorem Tree.attach_subtree_WF (t : Tree) (self node : Nat)
    (hwf : WF t) (hself : self < t.size) (hnode : node < t.size)
    (hnr : ¬ ReachUp t self node) : WF (t.attach_subtree self node) := by
  unfold Tree.attach_subtree
  cases hpid : (t.get node).path_id with
  | none =>
    simp only []
    exact (foldl_attachSubtreeStep_WF _ self node _ t hwf hself hnr).1
  | some _ =>
    simp only []
    -- the bare path node is wrapped into a fresh fence
    set ta := (t.alloc { fenced := true } : Tree × Nat).1 with hta
    have hwfa : WF ta := Tree.alloc_WF t _ hwf rfl rfl
    have hsza : ta.size = t.size + 1 := Tree.size_alloc ..
    have hween : ¬ ReachUp ta t.size node := by
      intro h
      have := reach_from_parentless (b := node) (a := t.size) ?_ h
      · omega
      · rw [hta, Tree.get_alloc_self]
    have hnlt : node < ta.size := by omega
    set tb := Tree.attach_child ta t.size node with htb
    have hwfb : WF tb := by
      rw [htb]
      unfold Tree.attach_child
      exact Tree.set_parent_WF ta node (some t.size) hwfa hnlt
        (fun pp hpp => by cases hpp; exact ⟨by omega, hween⟩)
    have hszb : tb.size = t.size + 1 := by
      rw [htb]
      unfold Tree.attach_child
      rw [Tree.size_set_parent, hsza]
    have hselfb : self < tb.size := by omega
    have hnrb : ¬ ReachUp tb self t.size := by
      intro h
      rw [htb] at h
      unfold Tree.attach_child at h
      rcases set_parent_reach_transport ta node t.size hnlt hween h with h1 | ⟨h1, _⟩
      · have := Tree.alloc_reach_self t _ hwf rfl (hta ▸ h1)
        omega
      · have h1' : ReachUp t self node :=
          reach_mono (Tree.alloc_parent_sub t _ rfl) (hta ▸ h1)
        exact hnr h1'
    exact (foldl_attachSubtreeStep_WF _ self t.size _ tb hwfb hselfb hnrb).1

/-- The `attach_path` construction fold: starting from a tree whose
cursor is in range, it preserves well-formedness, never shrinks the
arena, and adds no upward path from any pre-existing node to another. -/
theorem attachPathStep_fold_facts (l : List PathId) (N : Nat) :
    ∀ (acc : Tree × Nat × Bool), WF acc.1 → acc.2.1 < acc.1.size → N ≤ acc.1.size →
      WF (l.foldl Tree.attachPathStep acc).1
      ∧ (l.foldl Tree.attachPathStep acc).2.1 < (l.foldl Tree.attachPathStep acc).1.size
      ∧ N ≤ (l.foldl Tree.attachPathStep acc).1.size
      ∧ (∀ a b, a < N → ReachUp (l.foldl Tree.attachPathStep acc).1 a b
          → ReachUp acc.1 a b) := by
  induction l with
  | nil => exact fun acc hwf hc hN => ⟨hwf, hc, hN, fun _ _ _ h => h⟩
  | cons pr prs ih =>
    intro acc hwf hc hN
    obtain ⟨t, cur, lp⟩ := acc
    simp only [List.foldl_cons]
    simp only [] at hwf hc hN
    by_cases hptr : pr.is_ptr_path
    · have hstep : Tree.attachPathStep (t, cur, lp) pr = (t, cur, true) := by
        unfold Tree.attachPathStep
        simp only []
        rw [if_pos hptr]
      rw [hstep]
      exact ih (t, cur, true) hwf hc hN
    · have hstep : Tree.attachPathStep (t, cur, lp) pr
          = (Tree.attach_child (t.alloc { path_id := some pr }).1 cur t.size,
             if lp || pr.is_linkprop_path then cur else t.size, false) := by
        unfold Tree.attachPathStep
        simp only []
        rw [if_neg hptr]
        rfl
      rw [hstep]
      set ta := (t.alloc { path_id := some pr } : Tree × Nat).1 with hta
      have hwfa : WF ta := Tree.alloc_WF t _ hwf rfl rfl
      have hsza : ta.size = t.size + 1 := Tree.size_alloc ..
      have hsafe : ¬ ReachUp ta cur t.size := by
        intro h
        have := Tree.alloc_reach_self t _ hwf rfl (hta ▸ h)
        omega
      set tb := Tree.attach_child ta cur t.size with htb
      have hwfb : WF tb := by
        rw [htb]
        unfold Tree.attach_child
        exact Tree.set_parent_WF ta t.size (some cur) hwfa (by omega)
          (fun pp hpp => by cases hpp; exact ⟨by omega, hsafe⟩)
      have hszb : tb.size = t.size + 1 := by
        rw [htb]
        unfold Tree.attach_child
        rw [Tree.size_set_parent, hsza]
      have hcur' : (if lp || pr.is_linkprop_path then cur else t.size) < tb.size := by
        split <;> omega
      obtain ⟨g1, g2, g3, g4⟩ := ih (tb, if lp || pr.is_linkprop_path then cur else t.size, false)
        hwfb hcur' (by show N ≤ tb.size; omega)
      refine ⟨g1, g2, g3, ?_⟩
      intro a b ha hr
      have hmid := g4 a b ha hr
      rw [htb] at hmid
      unfold Tree.attach_child at hmid
      rcases set_parent_reach_transport ta t.size cur (by omega) hsafe hmid with h1 | ⟨h1, _⟩
      · exact reach_mono (Tree.alloc_parent_sub t _ rfl) (hta ▸ h1)
      · have := Tree.alloc_reach_self t _ hwf rfl (hta ▸ h1)
        omega

/-- `attach_path` preserves well-formedness for any target node and any
path id. -/
theorem Tree.attach_path_WF (t : Tree) (self : Nat) (p : PathId)
    (hwf : WF t) (hself : self < t.size) : WF (t.attach_path self p) := by
  unfold Tree.attach_path
  simp only []
  rw [Tree.alloc_id]
  set t0 := (t.alloc { fenced := true } : Tree × Nat).1 with ht0
  have hwf0 : WF t0 := Tree.alloc_WF t _ hwf rfl rfl
  have hsz0 : t0.size = t.size + 1 := Tree.size_alloc ..
  obtain ⟨g1, g2, g3, g4⟩ := attachPathStep_fold_facts p.iter_prefixes.reverse (t.size + 1)
    (t0, t.size, false) hwf0 (by show t.size < t0.size; omega)
    (by show t.size + 1 ≤ t0.size; omega)
  refine Tree.attach_subtree_WF _ self t.size g1 (by omega) (by omega) ?_
  intro hr
  have h0 := g4 self t.size (by omega) hr
  have := Tree.alloc_reach_self t _ hwf rfl (ht0 ▸ h0)
  omega

theorem Tree.attach_fence_WF (t : Tree) (self : Nat)
    (hwf : WF t) (hself : self < t.size) : WF (t.attach_fence self).1 := by
  unfold Tree.attach_fence
  simp only []
  rw [Tree.alloc_id]
  set t0 := (t.alloc { fenced := true } : Tree × Nat).1 with ht0
  have hwf0 : WF t0 := Tree.alloc_WF t _ hwf rfl rfl
  have hsz0 : t0.size = t.size + 1 := Tree.size_alloc ..
  unfold Tree.attach_child
  refine Tree.set_parent_WF t0 t.size (some self) hwf0 (by omega) ?_
  intro pp hpp
  cases hpp
  refine ⟨by omega, ?_⟩
  intro hr
  have := Tree.alloc_reach_self t _ hwf rfl (ht0 ▸ hr)
  omega

theorem Tree.remove_subtree_WF (t : Tree) (self n : Nat) (hwf : WF t) :
    WF (t.remove_subtree self n).1 := by
  unfold Tree.remove_subtree
  by_cases hmem : (t.get self).children.contains n
  · rw [if_pos hmem]
    by_cases hself : self < t.size
    · have hco := (hwf.coherent n self hself).mp (by
        simpa using hmem)
      exact Tree.set_parent_WF t n none hwf hco.1 (by intro pp h; cases h)
    · rw [Tree.get_oob _ _ (Nat.not_lt.mp hself)] at hmem
      simp at hmem
  · rw [if_neg hmem]
    exact hwf

/-- Moving a list of in-range children under a fresh parentless wrapper
preserves well-formedness and never makes the wrapper reachable from a
node that could not reach any of the children. -/
theorem collapse_children_fold (w parent : Nat) (l : List Nat) :
    ∀ t : Tree, WF t → w < t.size → parent < t.size → (t.get w).parent = none →
      (∀ c ∈ l, c < t.size ∧ c ≠ w) →
      (∀ c ∈ l, ¬ ReachUp t parent c) → ¬ ReachUp t parent w →
      WF (l.foldl (fun acc c => Tree.attach_child acc w c) t)
      ∧ (l.foldl (fun acc c => Tree.attach_child acc w c) t).size = t.size
      ∧ ¬ ReachUp (l.foldl (fun acc c => Tree.attach_child acc w c) t) parent w := by
  induction l with
  | nil => exact fun t hwf _ _ _ _ _ hpw => ⟨hwf, rfl, hpw⟩
  | cons c cs ih =>
    intro t hwf hw hparent hwpar hbnd hnp hpw
    simp only [List.foldl_cons]
    obtain ⟨hclt, hcw⟩ := hbnd c (by simp)
    have hsafe : ¬ ReachUp t w c := by
      intro h
      exact hcw (reach_from_parentless hwpar h)
    have hwf1 : WF (Tree.attach_child t w c) := by
      unfold Tree.attach_child
      exact Tree.set_parent_WF t c (some w) hwf hclt
        (fun pp hpp => by cases hpp; exact ⟨hw, hsafe⟩)
    have hsz1 : (Tree.attach_child t w c).size = t.size := by
      unfold Tree.attach_child
      exact Tree.size_set_parent ..
    have hnpc : ¬ ReachUp t parent c := hnp c (by simp)
    have htrans : ∀ x, ¬ ReachUp t parent x
        → ¬ ReachUp (Tree.attach_child t w c) parent x := by
      intro x hnx h
      unfold Tree.attach_child at h
      rcases set_parent_reach_transport t c w hclt hsafe h with h1 | ⟨h1, _⟩
      · exact hnx h1
      · exact hnpc h1
    have hwpar1 : ((Tree.attach_child t w c).get w).parent = none := by
      unfold Tree.attach_child
      rw [Tree.set_parent_parent_char t c (some w) hclt w, if_neg (Ne.symm hcw)]
      exact hwpar
    obtain ⟨g1, g2, g3⟩ := ih (Tree.attach_child t w c) hwf1 (by omega)
      (by omega) hwpar1
      (fun c' hc' => by
        obtain ⟨h1, h2⟩ := hbnd c' (List.mem_cons_of_mem c hc')
        exact ⟨by omega, h2⟩)
      (fun c' hc' => htrans c' (hnp c' (List.mem_cons_of_mem c hc')))
      (htrans w hpw)
    exact ⟨g1, by rw [g2, hsz1], g3⟩

theorem Tree.collapse_WF (t : Tree) (i : Nat) (hwf : WF t) : WF (t.collapse i).1 := by
  unfold Tree.collapse
  cases hpar : (t.get i).parent with
  | none => exact hwf
  | some parent =>
    have hi : i < t.size := by
      by_contra hge
      rw [Tree.get_oob _ _ (Nat.not_lt.mp hge)] at hpar
      cases hpar
    have hparlt : parent < t.size := hwf.parent_lt i hi parent hpar
    have hnpi : ¬ ReachUp t parent i := fun h => hwf.acyclic i ⟨parent, hpar, h⟩
    cases hpid : (t.get i).path_id with
    | none =>
      simp only []
      exact Tree.attach_subtree_WF t parent i hwf hparlt hi hnpi
    | some _ =>
      simp only []
      rw [Tree.alloc_id]
      set t1 := (t.alloc ({} : Node) : Tree × Nat).1 with ht1
      have hwf1 : WF t1 := Tree.alloc_WF t _ hwf rfl rfl
      have hsz1 : t1.size = t.size + 1 := Tree.size_alloc ..
      have hch1 : t1.childrenOf i = t.childrenOf i := by
        unfold Tree.childrenOf
        rw [ht1, Tree.get_alloc_lt _ _ _ hi]
      have hnw : ¬ ReachUp t1 parent t.size := by
        intro hr
        have := Tree.alloc_reach_self t _ hwf rfl (ht1 ▸ hr)
        omega
      have hwp : (t1.get t.size).parent = none := by
        rw [ht1, Tree.get_alloc_self]
      cases hch : t1.childrenOf i with
      | nil =>
        exact Tree.attach_subtree_WF t1 parent t.size hwf1 (by omega) (by omega) hnw
      | cons c rest =>
        have hcmem : c ∈ t.childrenOf i := by
          rw [← hch1, hch]; exact List.mem_cons_self c rest
        have hclt : c < t.size := ((hwf.coherent c i hi).mp hcmem).1
        refine Tree.set_parent_WF t1 c (some t.size) hwf1 (by omega) ?_
        intro pp hpp
        cases hpp
        refine ⟨by omega, fun hr => ?_⟩
        have := reach_from_parentless (t := t1) (a := t.size) (b := c) hwp hr
        omega

/-- The executable coherence and chain-termination checks imply the full
structural invariant. -/
theorem upTerm_no_cycle (t : Tree) :
    ∀ f i p, (t.get i).parent = some p → ReachUp t p i → upTerm t f i = false := by
  intro f
  induction f with
  | zero =>
    intro i p hp _
    simp [upTerm, hp]
  | succ f ih =>
    intro i p hp hr
    simp only [upTerm, hp]
    cases hr with
    | refl => exact ih i i hp (.refl i)
    | step a q j hq hqi => exact ih p q hq (hqi.append hp)

theorem wfCheck_WF (t : Tree) (h : wfCheck t = true) : WF t := by
  have hcoh : cohCheck t = true := by
    unfold wfCheck at h
    exact (Bool.and_eq_true_iff.mp h).1
  have hp3 : p3check t = true := by
    unfold wfCheck at h
    exact (Bool.and_eq_true_iff.mp h).2
  have hac : ∀ i, ¬ ReachUpS t i i := by
    rintro i ⟨p, hp, hr⟩
    have hi : i < t.size := by
      by_contra hge
      rw [Tree.get_oob _ _ (Nat.not_lt.mp hge)] at hp
      cases hp
    have hterm : upTerm t t.size i = true := by
      unfold p3check at hp3
      rw [List.all_eq_true] at hp3
      exact hp3 i (List.mem_range.mpr hi)
    rw [upTerm_no_cycle t t.size i p hp hr] at hterm
    cases hterm
  have hfacts : ∀ i, i < t.size →
      (∀ p, (t.get i).parent = some p → p < t.size ∧ i ∈ (t.get p).children)
      ∧ (∀ c ∈ (t.get i).children, c < t.size ∧ (t.get c).parent = some i)
      ∧ (t.get i).children.Nodup := by
    intro i hi
    unfold cohCheck at hcoh
    rw [List.all_eq_true] at hcoh
    have hh := hcoh i (List.mem_range.mpr hi)
    rw [Bool.and_eq_true_iff, Bool.and_eq_true_iff] at hh
    obtain ⟨⟨hpar, hch⟩, hnd⟩ := hh
    refine ⟨?_, ?_, by simpa using hnd⟩
    · intro p hp
      rw [hp] at hpar
      rw [Bool.and_eq_true_iff] at hpar
      exact ⟨by simpa using hpar.1, by simpa using hpar.2⟩
    · intro c hc
      rw [List.all_eq_true] at hch
      have := hch c hc
      rw [Bool.and_eq_true_iff] at this
      exact ⟨by simpa using this.1, by simpa using this.2⟩
  refine ⟨?_, ?_, ?_, hac⟩
  · intro i hi p hp
    exact (((hfacts i hi).1) p hp).1
  · intro i p hplt
    constructor
    · intro hmem
      exact ((hfacts p hplt).2.1 i hmem)
    · rintro ⟨hilt, hip⟩
      exact (((hfacts i hilt).1) p hip).2
  · intro i hi
    exact (hfacts i hi).2.2

/-- `WF` yields the three structural invariants of the specification. -/
theorem WF_invariants (t : Tree) (hwf : WF t) : P1 t ∧ P2 t ∧ P3 t := by
  refine ⟨?_, ?_, hwf.acyclic⟩
  · intro i hi
    cases hp : (t.get i).parent with
    | none => exact Or.inl rfl
    | some p =>
      have hplt := hwf.parent_lt i hi p hp
      exact Or.inr ⟨p, rfl, (hwf.coherent i p hplt).mpr ⟨hi, hp⟩⟩
  · intro n p q hplt hqlt hnp hnq
    have h1 := (hwf.coherent n p hplt).mp hnp
    have h2 := (hwf.coherent n q hqlt).mp hnq
    have h3 := h2.2
    rw [h1.2] at h3
    injection h3

/-- C7 counterexample: the claim asserts P1-P3 after EVERY public mutator,
but `attach_child` performs no validation ("no tree validation is
performed"), so attaching a node to one of its own descendants creates a
cycle.  Starting from the well-formed two-node tree `c7base` (a root with
one attached fence, where P1, P2 and P3 all hold), calling
`attach_child` to attach the root under its own child yields a tree in
which the root is its own strict ancestor, violating P3. -/
theorem c7_counterexample :
    (P1 c7base ∧ P2 c7base ∧ P3 c7base) ∧ ¬ P3 (Tree.attach_child c7base 1 0) := by
  constructor
  · exact WF_invariants c7base (wfCheck_WF c7base (by decide))
  · intro h
    exact h 0 ⟨1, by decide, .step 1 0 0 (by decide) (.refl 0)⟩

/-- C7 (amended): the structural invariants P1 (parent/child coherence),
P2 (single parent) and P3 (acyclicity) hold after every public mutator,
PROVIDED the low-level `attach_child`/`attach_subtree` entry points are
given an existing node that is neither the target nor an upward ancestor
of the target (the original claim is false for raw `attach_child`, which
performs no validation - see the counterexample).  Formally: full
well-formedness `WF` (which implies P1 and P2 and P3) is preserved by
`attach_fence`, `attach_path`, `attach_child`, `attach_subtree`,
`destroy`, `remove_subtree`, `collapse` and `unnest_descendants` on any
in-range target node. -/
theorem c7_invariants_amended :
    (∀ t : Tree, WF t → P1 t ∧ P2 t ∧ P3 t)
    ∧ (∀ (t : Tree) (self : Nat), WF t → self < t.size →
        WF (t.attach_fence self).1)
    ∧ (∀ (t : Tree) (self : Nat) (p : PathId), WF t → self < t.size →
        WF (t.attach_path self p))
    ∧ (∀ (t : Tree) (self node : Nat), WF t → self < t.size → node < t.size →
        ¬ ReachUp t self node → WF (Tree.attach_child t self node))
    ∧ (∀ (t : Tree) (self node : Nat), WF t → self < t.size → node < t.size →
        ¬ ReachUp t self node → WF (t.attach_subtree self node))
    ∧ (∀ (t : Tree) (i : Nat), WF t → WF (Tree.destroy t i))
    ∧ (∀ (t : Tree) (self n : Nat), WF t → WF (t.remove_subtree self n).1)
    ∧ (∀ (t : Tree) (i : Nat), WF t → WF (t.collapse i).1)
    ∧ (∀ (t : Tree) (self : Nat) (p : PathId), WF t → self < t.size →
        WF (t.unnest_descendants self p).1) := by
  refine ⟨WF_invariants, Tree.attach_fence_WF, Tree.attach_path_WF,
    ?_, Tree.attach_subtree_WF, Tree.destroy_WF, Tree.remove_subtree_WF,
    Tree.collapse_WF, fun t self p hwf hself => (Tree.unnest_WF t self p hwf hself).1⟩
  intro t self node hwf hself hnode hnr
  exact Tree.set_parent_WF t node (some self) hwf hnode
    (fun pp hpp => by cases hpp; exact ⟨hself, hnr⟩)

/-- Witness: the amended invariant theorem applied at concrete inputs -
the well-formed two-node tree `c7base` satisfies P1-P3, and each mutator
applied to it at in-range nodes yields a well-formed tree. -/
theorem c7_witness :
    (P1 c7base ∧ P2 c7base ∧ P3 c7base)
    ∧ WF (c7base.attach_fence 1).1
    ∧ WF (c7base.attach_path 1 pUserName)
    ∧ WF (Tree.attach_child c7base 0 1)
    ∧ WF (c7base.attach_subtree 0 1)
    ∧ WF (Tree.destroy c7base 1)
    ∧ WF (c7base.remove_subtree 0 1).1
    ∧ WF (c7base.collapse 1).1
    ∧ WF (c7base.unnest_descendants 0 pUserName).1 := by
  have hwf : WF c7base := wfCheck_WF c7base (by decide)
  have hnr : ¬ ReachUp c7base 0 1 := by
    intro h
    have := reach_from_parentless (t := c7base) (a := 0) (b := 1) (by decide) h
    omega
  exact ⟨c7_invariants_amended.1 c7base hwf,
    c7_invariants_amended.2.1 c7base 1 hwf (by decide),
    c7_invariants_amended.2.2.1 c7base 1 pUserName hwf (by decide),
    c7_invariants_amended.2.2.2.1 c7base 0 1 hwf (by decide) (by decide) hnr,
    c7_invariants_amended.2.2.2.2.1 c7base 0 1 hwf (by decide) (by decide) hnr,
    c7_invariants_amended.2.2.2.2.2.1 c7base 1 hwf,
    c7_invariants_amended.2.2.2.2.2.2.1 c7base 0 1 hwf,
    c7_invariants_amended.2.2.2.2.2.2.2.1 c7base 1 hwf,
    c7_invariants_amended.2.2.2.2.2.2.2.2 c7base 0 pUserName hwf (by decide)⟩

end ScopeTreeSpec
